import Mathlib

/-!
Verification development for the `einsum` contraction engine
(`src/lib.rs`, `src/contractors.rs`).

A tensor of the host library (`ndarray::ArrayD`) is embedded logically as a
shape (list of extents) together with a total indexing function on index
lists; two tensors are considered equal when their shapes agree and their
indexing functions agree on all in-range indices.  Operations that can panic
in the source (failed `assert!`, `unwrap`, out-of-bounds axis) are embedded
as `Option`-valued functions returning `none` at the panic.

The stride-level behaviour of `Diagonalization` is embedded separately with
an explicit (buffer, shape, strides) representation mirroring
`ndarray`'s strided views.
-/

namespace Einsum

/-- Logical (owned or viewed) dynamic-dimensional tensor: a shape and a total
indexing function over index lists; only indices valid for the shape are
meaningful. -/
structure Tensor (α : Type) where
  shape : List Nat
  data : List Nat → α

/-- Validity of a multi-index for a shape: same rank and every coordinate
within its extent. -/
def validIdx (shape : List Nat) (v : List Nat) : Prop :=
  v.length = shape.length ∧ ∀ k, k < shape.length → v.getD k 0 < shape.getD k 0

instance (shape v : List Nat) : Decidable (validIdx shape v) := by
  unfold validIdx
  exact instDecidableAnd

/-- Extensional equality of tensors: equal shapes and equal entries at every
valid index. -/
def tEq {α : Type} (t u : Tensor α) : Prop :=
  t.shape = u.shape ∧ ∀ v, validIdx t.shape v → t.data v = u.data v

/-- Lifting of `tEq` to `Option`: both absent (both computations panic), or
both present and extensionally equal. -/
def oEq {α : Type} : Option (Tensor α) → Option (Tensor α) → Prop
  | none, none => True
  | some t, some u => tEq t u
  | _, _ => False

/-- Index-space inverse of an axis permutation: `invApply perm v` is the
input index `u` with `u[perm[j]] = v[j]` for every `j` (well defined when
`perm` is a permutation of the axis numbers). -/
def invApply (perm : List Nat) (v : List Nat) : List Nat :=
  (List.range perm.length).map (fun i => v.getD (perm.findIdx (fun x => x = i)) 0)

/-- Embedding of `ndarray`'s `permuted_axes`: axis `j` of the result is axis
`perm[j]` of the input; panics (`none`) unless `perm` lists each axis exactly
once. -/
def permutedAxes {α : Type} (perm : List Nat) (t : Tensor α) : Option (Tensor α) :=
  if perm.Perm (List.range t.shape.length) then
    some ⟨perm.map (fun i => t.shape.getD i 0), fun v => t.data (invApply perm v)⟩
  else none

/-- Underlying tensor of `sum_axis`: axis `ax` removed, entries summed along
it. -/
def sumAxisT {α : Type} [AddCommMonoid α] (ax : Nat) (t : Tensor α) : Tensor α :=
  ⟨t.shape.eraseIdx ax,
   fun v => ∑ i ∈ Finset.range (t.shape.getD ax 0), t.data (List.insertIdx ax i v)⟩

/-- Embedding of `ndarray`'s `sum_axis`: removes axis `ax`, summing entries
along it; panics (`none`) when the axis is out of range. -/
def sumAxis {α : Type} [AddCommMonoid α] (ax : Nat) (t : Tensor α) : Option (Tensor α) :=
  if ax < t.shape.length then some (sumAxisT ax t) else none

/-- Iterated `sum_axis` over a list of axis numbers, applied left to right
(the loop body of `Summation::contract_singleton`). -/
def sumAxisIter {α : Type} [AddCommMonoid α] : List Nat → Tensor α → Option (Tensor α)
  | [], t => some t
  | a :: rest, t => (sumAxis a t).bind (sumAxisIter rest)

/-! ## Contraction specification (`validation.rs` data shape)

Only the fields destructured by `contractors.rs` are embedded: the operand
index-label lists, the output index-label list and the label-to-extent map
of a `SizedContraction`. -/

/-- Field selection of `Contraction` used by `contractors.rs`: per-operand
label sequences and the output label sequence. -/
structure Contraction where
  operand_indices : List (List Char)
  output_indices : List Char

/-- Field selection of `SizedContraction` used by `contractors.rs`: the
contraction plus the validated label-to-extent map (`output_size`). -/
structure SizedContraction where
  contraction : Contraction
  output_size : Char → Nat

/-- Modelled from the spec: `classifiers.rs` is not under `src/`.  Per §3 a
singleton operand label is Output-kept when it appears in the output label
sequence and Summed when it is absent from it. -/
inductive SingletonIndexInfo where
  | OutputInfo : SingletonIndexInfo
  | SummedInfo : SingletonIndexInfo
deriving DecidableEq

/-- Modelled from the spec: an operand label together with its singleton
classification (§4.1). -/
structure IndexWithSingletonInfo where
  index : Char
  index_info : SingletonIndexInfo
deriving DecidableEq

/-- Modelled from the spec: `ClassifiedSingletonContraction` of
`classifiers.rs` is not under `src/`.  It carries the operand labels with
their tags, the output labels, and the ordered list of distinct summed
labels (§4.1: "the ordered list of distinct labels that are summed"). -/
structure ClassifiedSingletonContraction where
  input_indices : List IndexWithSingletonInfo
  output_indices : List Char
  summed_indices : List Char

/-- Modelled from the spec: `ClassifiedSingletonContraction::new` (§4.1),
a pure derivation tagging each operand label and collecting the distinct
summed labels. -/
def classify (sc : SizedContraction) : ClassifiedSingletonContraction :=
  let op0 := sc.contraction.operand_indices.getD 0 []
  let outs := sc.contraction.output_indices
  { input_indices :=
      op0.map (fun c =>
        ⟨c, if c ∈ outs then SingletonIndexInfo.OutputInfo else SingletonIndexInfo.SummedInfo⟩)
    output_indices := outs
    summed_indices := (op0.filter (fun c => decide (¬ c ∈ outs))).dedup }

/-! ## Singleton operators (`contractors.rs`) -/

/-- Embedding of `struct Permutation`: the axis permutation vector. -/
structure Permutation where
  permutation : List Nat

/-- Position of the first occurrence of a label in a label list
(`Iterator::position`), `none` when absent. -/
def firstPos (c : Char) : List Char → Option Nat
  | [] => none
  | x :: xs => if x = c then some 0 else (firstPos c xs).map (· + 1)

/-- Positions in `op0` of each label of the second list, in order; `none`
when some label is absent (the `unwrap` in `Permutation::new` panics). -/
def positionsOf (op0 : List Char) : List Char → Option (List Nat)
  | [] => some []
  | c :: cs => (firstPos c op0).bind (fun p => (positionsOf op0 cs).map (p :: ·))

/-- Embedding of `Permutation::new`: requires exactly one operand and equal
operand/output label-sequence lengths (two `assert_eq!`), then maps each
output label to its position in the operand labels (`unwrap`). -/
def Permutation.new (sc : SizedContraction) : Option Permutation :=
  match sc.contraction.operand_indices with
  | [op0] =>
      if op0.length = sc.contraction.output_indices.length then
        (positionsOf op0 sc.contraction.output_indices).map Permutation.mk
      else none
  | _ => none

/-- Embedding of `Permutation::from_indices`. -/
def Permutation.from_indices (l : List Nat) : Permutation := ⟨l⟩

/-- Embedding of `<Permutation as SingletonContractor>::contract_singleton`
(also its `view_singleton`): `permuted_axes` with the stored vector. -/
def Permutation.contract_singleton {α : Type} (p : Permutation) (t : Tensor α) :
    Option (Tensor α) :=
  permutedAxes p.permutation t

/-- Embedding of `struct Summation`. -/
structure Summation where
  orig_axis_list : List Nat
  adjusted_axis_list : List Nat

/-- Embedding of `Summation::new`: asserts at least one summed axis; the
original axes are `start_index..start_index+num_summed_axes` and the
adjusted list repeats `start_index` once per summed axis. -/
def Summation.new (start_index num_summed_axes : Nat) : Option Summation :=
  if 1 ≤ num_summed_axes then
    some ⟨List.range' start_index num_summed_axes,
          List.replicate num_summed_axes start_index⟩
  else none

/-- Embedding of `<Summation as SingletonContractor>::contract_singleton`:
`sum_axis` at the first adjusted axis, then at each remaining adjusted axis
(indexing `adjusted_axis_list[0]` panics when the list is empty). -/
def Summation.contract_singleton {α : Type} [AddCommMonoid α] (s : Summation)
    (t : Tensor α) : Option (Tensor α) :=
  match s.adjusted_axis_list with
  | [] => none
  | a :: rest => (sumAxis a t).bind (sumAxisIter rest)

/-- Embedding of the boxed `SingletonViewer` stored by `ViewAndSummation`:
either `Identity` or a `Permutation`. -/
inductive SingletonView where
  | identity : SingletonView
  | permutation : Permutation → SingletonView

/-- Embedding of `view_singleton` of the stored viewer: `Identity` returns
the tensor itself, `Permutation` applies `permuted_axes`. -/
def SingletonView.view_singleton {α : Type} : SingletonView → Tensor α → Option (Tensor α)
  | SingletonView.identity, t => some t
  | SingletonView.permutation p, t => permutedAxes p.permutation t

/-- Embedding of `struct ViewAndSummation`. -/
structure ViewAndSummation where
  view : SingletonView
  summation : Summation

/-- Helper recursion over the output labels for `outputPositions`. -/
def outputPositionsGo (inp : List IndexWithSingletonInfo) : List Char → Option (List Nat)
  | [] => some []
  | c :: cs =>
      ((inp.map (fun iw => iw.index)).findIdx? (fun x => x = c)).bind
        (fun p => (outputPositionsGo inp cs).map (p :: ·))

/-- Positions in the classified input labels of each output label (first
matching position, `unwrap` on absence), as in the first loop of
`ViewAndSummation::new`. -/
def outputPositions (csc : ClassifiedSingletonContraction) : Option (List Nat) :=
  outputPositionsGo csc.input_indices csc.output_indices

/-- Positions of the summed operand axes in operand order, as in the second
loop of `ViewAndSummation::new`. -/
def summedPositions (csc : ClassifiedSingletonContraction) : List Nat :=
  (csc.input_indices.enum.filter
    (fun p => p.2.index_info = SingletonIndexInfo.SummedInfo)).map (fun p => p.1)

/-- Embedding of `ViewAndSummation::new`: permutation = output-label
positions then summed positions; the view is `Identity` when that
permutation is the identity, else a `Permutation`; the summation starts
after the output axes and covers one axis per distinct summed label. -/
def ViewAndSummation.new (csc : ClassifiedSingletonContraction) :
    Option ViewAndSummation := do
  let outPos ← outputPositions csc
  let perm := outPos ++ summedPositions csc
  let view :=
    if perm = List.range csc.input_indices.length then SingletonView.identity
    else SingletonView.permutation (Permutation.from_indices perm)
  let summation ← Summation.new csc.output_indices.length csc.summed_indices.length
  return ⟨view, summation⟩

/-- Embedding of `<ViewAndSummation as SingletonContractor>::contract_singleton`:
view, then summation. -/
def ViewAndSummation.contract_singleton {α : Type} [AddCommMonoid α]
    (vs : ViewAndSummation) (t : Tensor α) : Option (Tensor α) :=
  (vs.view.view_singleton t).bind vs.summation.contract_singleton

/-- Embedding of `SingletonContraction::new` followed by its
`contract_singleton`: classify, then dispatch to `Permutation` when there
are no summed labels and to `ViewAndSummation` otherwise. -/
def SingletonContraction.contract_singleton {α : Type} [AddCommMonoid α]
    (sc : SizedContraction) (t : Tensor α) : Option (Tensor α) :=
  let csc := classify sc
  if csc.summed_indices.length = 0 then
    (Permutation.new sc).bind (fun p => p.contract_singleton t)
  else
    (ViewAndSummation.new csc).bind (fun vs => vs.contract_singleton t)

/-- Modelled from the spec: the selection rule of §4.2 — with no summed
labels apply the `Permutation` operator directly; otherwise apply a
`Permutation` (or `Identity` when the axis order is already canonical) view
that places the output-label axes first in output order followed by the
summed axes, then apply `Summation` over the trailing summed-axis block
(one `sum_axis` at the block start per appended summed axis). -/
def specSingletonContract {α : Type} [AddCommMonoid α] (sc : SizedContraction)
    (t : Tensor α) : Option (Tensor α) :=
  let csc := classify sc
  if csc.summed_indices.length = 0 then
    (Permutation.new sc).bind (fun p => p.contract_singleton t)
  else
    (outputPositions csc).bind (fun outPos =>
      let perm := outPos ++ summedPositions csc
      let viewed :=
        if perm = List.range csc.input_indices.length then some t
        else permutedAxes perm t
      viewed.bind
        (sumAxisIter
          (List.replicate (summedPositions csc).length csc.output_indices.length)))

/-! ## Reference reductions for the summation claims -/

/-- Iterated summation over a block of trailing extents: `S s f` sums `f`
over every multi-index valid for the extent list `s`. -/
def S {α : Type} [AddCommMonoid α] : List Nat → (List Nat → α) → α
  | [], f => f []
  | d :: ds, f => ∑ i ∈ Finset.range d, S ds (fun j => f (i :: j))

/-- Mathematical multi-axis reduction: keep the first `start` axes, sum over
every combination of the trailing coordinates. -/
def refMultiSum {α : Type} [AddCommMonoid α] (start : Nat) (t : Tensor α) : Tensor α :=
  ⟨t.shape.take start, fun v => S (t.shape.drop start) (fun j => t.data (v ++ j))⟩

/-- Reference reduction of the claim: collapse the listed axes (positions in
the original tensor) one at a time with `sum_axis`, decrementing the
positions of the still-pending axes that lie beyond each removed one. -/
def collapseAxes {α : Type} [AddCommMonoid α] : List Nat → Tensor α → Option (Tensor α)
  | [], t => some t
  | a :: rest, t =>
      (sumAxis a t).bind
        (collapseAxes (rest.map (fun b => if a < b then b - 1 else b)))
termination_by l _ => l.length
decreasing_by simp

/-! ## Concrete sized contractions used by the claims -/

/-- Sized contraction for the diagonal-extraction semantics `"ii->i"` with
extent `n` for label `i`. -/
def scDiag (n : Nat) : SizedContraction :=
  ⟨⟨[['i', 'i']], ['i']⟩, fun _ => n⟩

/-- Sized contraction for the pure-permutation semantics `"ij->ji"` on an
`n × m` operand. -/
def scTranspose (n m : Nat) : SizedContraction :=
  ⟨⟨[['i', 'j']], ['j', 'i']⟩, fun c => if c = 'i' then n else m⟩

/-- Sized contraction for the full-summation semantics `"ij->"` on an
`n × m` operand. -/
def scFullSum (n m : Nat) : SizedContraction :=
  ⟨⟨[['i', 'j']], []⟩, fun c => if c = 'i' then n else m⟩

/-- Sized contraction `"iij->j"`: the summed label `i` repeats within the
operand; extent 2 everywhere. -/
def scDiagSummed : SizedContraction :=
  ⟨⟨[['i', 'i', 'j']], ['j']⟩, fun _ => 2⟩

/-- Sized contraction `"ij->i"`: one summed label, no repeats; extent 2
everywhere. -/
def scRowSum : SizedContraction :=
  ⟨⟨[['i', 'j']], ['i']⟩, fun _ => 2⟩

/-- Concrete 2 × 2 × 2 integer tensor used by counterexamples. -/
def tCube : Tensor Int :=
  ⟨[2, 2, 2], fun v => (v.getD 0 0) * 4 + (v.getD 1 0) * 2 + v.getD 2 0⟩

/-! ## Strided embedding for `Diagonalization`

`Diagonalization::view_singleton` works on the shape, the signed strides
and the memory-order data slice of an `ndarray` view, so it is embedded
over an explicit (shape, strides, buffer) representation. -/

/-- Strided tensor view: a shape, signed per-axis element strides, and the
underlying element buffer (offset 0). -/
structure StridedTensor (α : Type) where
  shape : List Nat
  strides : List Int
  buf : List α

/-- Row-major (C-order) strides: the stride of an axis is the product of
the later extents. -/
def rowMajorStrides : List Nat → List Int
  | [] => []
  | _ :: ds => (ds.prod : Int) :: rowMajorStrides ds

/-- Embedding of `ndarray`'s default (owned, freshly allocated) strides:
row-major, except all-zero when some extent is zero (empty array). -/
def default_strides (shape : List Nat) : List Int :=
  if shape.all (fun d => decide (d ≠ 0)) then rowMajorStrides shape
  else List.replicate shape.length 0

/-- Contiguity in some memory order (the condition for
`as_slice_memory_order` to return the data slice): some axis permutation
puts the strides into row-major form for the permuted shape, and the
buffer holds exactly product-many elements. -/
def memContiguous {α : Type} (t : StridedTensor α) : Prop :=
  t.strides.length = t.shape.length ∧ t.buf.length = t.shape.prod ∧
    ∃ σ ∈ (List.range t.shape.length).permutations,
      σ.map (fun i => t.strides.getD i 0)
        = rowMajorStrides (σ.map (fun i => t.shape.getD i 0))

instance {α : Type} (t : StridedTensor α) : Decidable (memContiguous t) := by
  unfold memContiguous
  exact inferInstance

/-- Embedding of `struct Diagonalization`. -/
structure Diagonalization where
  input_to_output_mapping : List Nat
  output_shape : List Nat

/-- Embedding of `Diagonalization::new`: requires exactly one operand; the
output shape maps each output label to its extent, and each operand axis is
mapped to the position of its label in the output labels (`unwrap` on
absence). -/
def Diagonalization.new (sc : SizedContraction) : Option Diagonalization :=
  match sc.contraction.operand_indices with
  | [op0] =>
      (positionsOf sc.contraction.output_indices op0).map
        (fun mapping =>
          ⟨mapping, sc.contraction.output_indices.map sc.output_size⟩)
  | _ => none

/-- Stride-accumulation loop of `Diagonalization::view_singleton`: for each
input axis, assert its stride positive (`assert!(stride > 0)`) and add it,
as `usize`, to the slot of the mapped output axis (vector indexing panics
are `none`). -/
def addDiagStrides (mapping : List Nat) : List Int → Nat → List Nat → Option (List Nat)
  | [], _, acc => some acc
  | s :: rest, idx, acc =>
      if 0 < s then
        match mapping.get? idx with
        | some o =>
            if o < acc.length then
              addDiagStrides mapping rest (idx + 1) (acc.set o (acc.getD o 0 + s.toNat))
            else none
        | none => none
      else none

/-- Bound check of `ArrayView::from_shape(...).unwrap()`: the view is empty
or its largest reachable offset lies within the slice. -/
def viewOk (shape strides : List Nat) (len : Nat) : Prop :=
  shape.prod = 0 ∨
    (∑ o ∈ Finset.range shape.length, (shape.getD o 0 - 1) * strides.getD o 0) < len

instance (shape strides : List Nat) (len : Nat) : Decidable (viewOk shape strides len) := by
  unfold viewOk
  exact inferInstance

/-- Diagonal view produced by `view_singleton`: output shape, unsigned
merged strides, and the borrowed memory-order slice. -/
structure DiagView (α : Type) where
  shape : List Nat
  strides : List Nat
  buf : List α

/-- Element of a diagonal view at a multi-index: buffer entry at the
stride-weighted offset. -/
def DiagView.elem {α : Type} [Inhabited α] (w : DiagView α) (v : List Nat) : α :=
  w.buf.getD (∑ o ∈ Finset.range w.shape.length, v.getD o 0 * w.strides.getD o 0) default

/-- Embedding of `<Diagonalization as SingletonViewer>::view_singleton`:
accumulate the merged strides (asserting positivity), take the memory-order
slice (`unwrap`), and build the strided view over it (`unwrap` of
`from_shape`). -/
def Diagonalization.view_singleton {α : Type} (d : Diagonalization)
    (t : StridedTensor α) : Option (DiagView α) :=
  (addDiagStrides d.input_to_output_mapping t.strides 0
      (List.replicate d.output_shape.length 0)).bind
    (fun strides =>
      if memContiguous t then
        if viewOk d.output_shape strides t.buf.length then
          some ⟨d.output_shape, strides, t.buf⟩
        else none
      else none)

/-- Concatenation of the blocks `g 0, g 1, ..., g (d-1)`. -/
def flatRange {β : Type} (g : Nat → List β) : Nat → List β
  | 0 => []
  | d + 1 => flatRange g d ++ g d

/-- Row-major flattening of an indexing function over a shape. -/
def flattenF {α : Type} : List Nat → (List Nat → α) → List α
  | [], f => [f []]
  | d :: ds, f => flatRange (fun i => flattenF ds (fun j => f (i :: j))) d

/-- Row-major element list of a logical tensor (`ndarray` iteration
order, as collected by `tensor.iter().cloned().collect()`). -/
def flattenT {α : Type} (t : Tensor α) : List α := flattenF t.shape t.data

/-- Row-major linearization of a multi-index for a shape. -/
def encodeIdx : List Nat → List Nat → Nat
  | [], _ => 0
  | _ :: _, [] => 0
  | _ :: ds, i :: is => i * ds.prod + encodeIdx ds is

/-- Embedding of `<Diagonalization as SingletonContractor>::contract_singleton`:
copy the tensor into a fresh contiguous buffer in iteration order
(`Array::from_shape_vec(tensor.raw_dim(), tensor.iter().cloned().collect())`),
build the diagonal view over the copy, and own the result. -/
def Diagonalization.contract_singleton {α : Type} [Inhabited α]
    (d : Diagonalization) (t : Tensor α) : Option (Tensor α) :=
  let cloned : StridedTensor α := ⟨t.shape, default_strides t.shape, flattenT t⟩
  (d.view_singleton cloned).map (fun w => ⟨w.shape, fun v => w.elem v⟩)

/-! ## Pairwise contraction (`tensordot`, `lib.rs`) -/

/-- Row-major decoding of a linear index into a multi-index for a shape. -/
def decodeIdx : List Nat → Nat → List Nat
  | [], _ => []
  | _ :: ds, x => (x / ds.prod) :: decodeIdx ds (x % ds.prod)

/-- Modelled from the spec: `TensordotGeneral` (referenced from `lib.rs`)
is not under `src/`.  Per §4.3, with no batch axes: permute each operand
into block order (`[free][contracted]` on the left, `[contracted][free]` on
the right), collapse each block into one flattened axis, multiply the
resulting matrices, reshape the product back to the per-axis free shape,
and permute to the requested output order. -/
def tensordotGeneral {α : Type} [AddCommMonoid α] [Mul α]
    (lhs rhs : Tensor α) (lhs_axes rhs_axes output_order : List Nat) :
    Option (Tensor α) :=
  let lhs_free := (List.range lhs.shape.length).filter (fun i => decide (¬ i ∈ lhs_axes))
  let rhs_free := (List.range rhs.shape.length).filter (fun i => decide (¬ i ∈ rhs_axes))
  let freeL := lhs_free.map (fun i => lhs.shape.getD i 0)
  let freeR := rhs_free.map (fun i => rhs.shape.getD i 0)
  let conD := lhs_axes.map (fun i => lhs.shape.getD i 0)
  (permutedAxes (lhs_free ++ lhs_axes) lhs).bind (fun lp =>
    (permutedAxes (rhs_axes ++ rhs_free) rhs).bind (fun rp =>
      let matData : List Nat → α := fun v =>
        ∑ b ∈ Finset.range conD.prod,
          lp.data (decodeIdx freeL (v.getD 0 0) ++ decodeIdx conD b) *
            rp.data (decodeIdx conD b ++ decodeIdx freeR (v.getD 1 0))
      let unflat : Tensor α :=
        ⟨freeL ++ freeR,
         fun v => matData
           [encodeIdx freeL (v.take freeL.length),
            encodeIdx freeR (v.drop freeL.length)]⟩
      permutedAxes output_order unflat))

/-- Embedding of `tensordot` (`lib.rs`): asserts equal axis-list lengths,
and contracts with output order `0, 1, ...` over all uncontracted axes
(left free axes first, then right free axes). -/
def tensordot {α : Type} [AddCommMonoid α] [Mul α]
    (lhs rhs : Tensor α) (lhs_axes rhs_axes : List Nat) : Option (Tensor α) :=
  if lhs_axes.length = rhs_axes.length then
    tensordotGeneral lhs rhs lhs_axes rhs_axes
      (List.range (lhs.shape.length + rhs.shape.length - 2 * lhs_axes.length))
  else none

end Einsum

namespace Einsum

/-! ## Counting lemmas for the dispatcher refinement -/

theorem enumFrom_filter_snd_length {β : Type} (q : β → Bool) :
    ∀ (l : List β) (i : Nat),
      ((List.enumFrom i l).filter (fun p => q p.2)).length = (l.filter q).length := by
  intro l
  induction l with
  | nil => intro i; rfl
  | cons x xs ih =>
      intro i
      rw [List.enumFrom_cons]
      by_cases hx : q x
      · rw [List.filter_cons_of_pos (by simpa using hx), List.filter_cons_of_pos hx]
        simp [ih]
      · rw [List.filter_cons_of_neg (by simpa using hx), List.filter_cons_of_neg hx]
        exact ih (i + 1)

theorem summedPositions_length (csc : ClassifiedSingletonContraction) :
    (summedPositions csc).length =
      (csc.input_indices.filter
        (fun iw => iw.index_info = SingletonIndexInfo.SummedInfo)).length := by
  unfold summedPositions
  rw [List.length_map, List.enum]
  exact enumFrom_filter_snd_length
    (fun iw => decide (iw.index_info = SingletonIndexInfo.SummedInfo)) csc.input_indices 0

theorem classify_summed_count (sc : SizedContraction) :
    (summedPositions (classify sc)).length =
      ((sc.contraction.operand_indices.getD 0 []).filter
        (fun c => decide (¬ c ∈ sc.contraction.output_indices))).length := by
  rw [summedPositions_length]
  show (((sc.contraction.operand_indices.getD 0 []).map _).filter _).length = _
  rw [List.filter_map, List.length_map]
  congr 1
  apply List.filter_congr
  intro c _
  by_cases hc : c ∈ sc.contraction.output_indices <;> simp [hc]

/-- Characterization of `ViewAndSummation::new` when the output-position
lookups succeed and there is at least one summed label. -/
theorem vas_new_eq (csc : ClassifiedSingletonContraction) (outPos : List Nat)
    (hout : outputPositions csc = some outPos)
    (hs : 1 ≤ csc.summed_indices.length) :
    ViewAndSummation.new csc = some
      ⟨if outPos ++ summedPositions csc = List.range csc.input_indices.length then
          SingletonView.identity
        else SingletonView.permutation ⟨outPos ++ summedPositions csc⟩,
       ⟨List.range' csc.output_indices.length csc.summed_indices.length,
        List.replicate csc.summed_indices.length csc.output_indices.length⟩⟩ := by
  unfold ViewAndSummation.new
  rw [hout]
  show (Summation.new csc.output_indices.length csc.summed_indices.length).bind _ = _
  rw [Summation.new, if_pos hs]
  rfl

/-- C2 (amended): provided no summed label repeats within the operand, the
dispatcher agrees with the spec's selection rule — `Permutation` directly
when there are no summed labels, otherwise the canonical output-then-summed
view followed by summation over the trailing summed-axis block. -/
theorem singleton_dispatch_refines_spec {α : Type} [AddCommMonoid α]
    (sc : SizedContraction) (t : Tensor α)
    (hnodup : ((sc.contraction.operand_indices.getD 0 []).filter
      (fun c => decide (¬ c ∈ sc.contraction.output_indices))).Nodup) :
    SingletonContraction.contract_singleton sc t = specSingletonContract sc t := by
  have hded : (classify sc).summed_indices =
      (sc.contraction.operand_indices.getD 0 []).filter
        (fun c => decide (¬ c ∈ sc.contraction.output_indices)) :=
    List.dedup_eq_self.mpr hnodup
  have hk : (summedPositions (classify sc)).length = (classify sc).summed_indices.length := by
    rw [classify_summed_count, hded]
  unfold SingletonContraction.contract_singleton specSingletonContract
  by_cases h0 : (classify sc).summed_indices.length = 0
  · rw [if_pos h0, if_pos h0]
  · rw [if_neg h0, if_neg h0]
    cases hout : outputPositions (classify sc) with
    | none => simp [ViewAndSummation.new, hout]
    | some outPos =>
        rw [vas_new_eq (classify sc) outPos hout (by omega)]
        simp only [Option.some_bind]
        show ViewAndSummation.contract_singleton _ t = _
        unfold ViewAndSummation.contract_singleton
        rw [hk]
        obtain ⟨k, hkk⟩ : ∃ k, (classify sc).summed_indices.length = k + 1 :=
          ⟨(classify sc).summed_indices.length - 1, by omega⟩
        rw [hkk]
        by_cases hperm :
            outPos ++ summedPositions (classify sc) =
              List.range (classify sc).input_indices.length
        · rw [if_pos hperm, if_pos hperm]
          rfl
        · rw [if_neg hperm, if_neg hperm]
          rfl

/-! ## Basic facts about `tEq` -/

theorem tEq_refl {α : Type} (t : Tensor α) : tEq t t := ⟨rfl, fun _ _ => rfl⟩

theorem tEq_symm {α : Type} {t u : Tensor α} (h : tEq t u) : tEq u t :=
  ⟨h.1.symm, fun v hv => (h.2 v (h.1 ▸ hv)).symm⟩

theorem tEq_trans {α : Type} {t u w : Tensor α} (h1 : tEq t u) (h2 : tEq u w) :
    tEq t w :=
  ⟨h1.1.trans h2.1, fun v hv => (h1.2 v hv).trans (h2.2 v (h1.1 ▸ hv))⟩

/-! ## List index lemmas -/

theorem take_eraseIdx_add {β : Type} (s k : Nat) :
    ∀ (l : List β), (l.eraseIdx (s + k)).take s = l.take s := by
  induction s with
  | zero => intro l; simp
  | succ s ih =>
      intro l
      cases l with
      | nil => simp
      | cons x xs =>
          rw [show s + 1 + k = (s + k) + 1 by omega, List.eraseIdx_cons_succ,
            List.take_succ_cons, List.take_succ_cons, ih]

theorem drop_eraseIdx_add {β : Type} (s k : Nat) :
    ∀ (l : List β), (l.eraseIdx (s + k)).drop s = (l.drop s).eraseIdx k := by
  induction s with
  | zero => intro l; simp
  | succ s ih =>
      intro l
      cases l with
      | nil => simp
      | cons x xs =>
          rw [show s + 1 + k = (s + k) + 1 by omega, List.eraseIdx_cons_succ,
            List.drop_succ_cons, List.drop_succ_cons, ih]

theorem getD_drop_add {β : Type} (s k : Nat) (d : β) :
    ∀ (l : List β), (l.drop s).getD k d = l.getD (s + k) d := by
  induction s with
  | zero => intro l; simp
  | succ s ih =>
      intro l
      cases l with
      | nil => simp
      | cons x xs =>
          rw [List.drop_succ_cons, ih, show s + 1 + k = (s + k) + 1 by omega,
            List.getD_cons_succ]

theorem insertIdx_length_append {β : Type} (i : β) (k : Nat) (j : List β) :
    ∀ (v : List β), List.insertIdx (v.length + k) i (v ++ j) = v ++ List.insertIdx k i j := by
  intro v
  induction v with
  | nil => simp
  | cons x xs ih =>
      rw [show (x :: xs).length + k = (xs.length + k) + 1 by
        rw [List.length_cons]; omega]
      rw [List.cons_append, List.insertIdx_succ_cons, ih, List.cons_append]

/-! ## Multi-sum reduction lemmas -/

theorem S_insert {α : Type} [AddCommMonoid α] :
    ∀ (s : List Nat) (k : Nat) (f : List Nat → α), k < s.length →
      S s f = ∑ i ∈ Finset.range (s.getD k 0),
        S (s.eraseIdx k) (fun j => f (List.insertIdx k i j)) := by
  intro s
  induction s with
  | nil => intro k f hk; simp at hk
  | cons d ds ih =>
      intro k f hk
      cases k with
      | zero =>
          simp only [S, List.getD_cons_zero, List.eraseIdx_cons_zero, List.insertIdx_zero]
      | succ k =>
          simp only [List.getD_cons_succ, List.eraseIdx_cons_succ]
          rw [show S (d :: ds) f = ∑ x ∈ Finset.range d, S ds (fun j => f (x :: j)) from rfl]
          rw [Finset.sum_congr rfl
            (fun x _ => ih k (fun j => f (x :: j)) (by simpa using hk))]
          rw [Finset.sum_comm]
          rfl

theorem S_sum_comm {α : Type} {γ : Type} [AddCommMonoid α] (F : Finset γ) :
    ∀ (s : List Nat) (g : γ → List Nat → α),
      S s (fun j => ∑ i ∈ F, g i j) = ∑ i ∈ F, S s (fun j => g i j) := by
  intro s
  induction s with
  | nil => intro g; rfl
  | cons d ds ih =>
      intro g
      show (∑ x ∈ Finset.range d, S ds (fun j => ∑ i ∈ F, g i (x :: j))) = _
      rw [Finset.sum_congr rfl (fun x _ => ih (fun i j => g i (x :: j)))]
      rw [Finset.sum_comm]
      rfl

/-- Collapsing one trailing axis with `sum_axis` and then multi-summing the
remaining trailing axes is the same as multi-summing all trailing axes. -/
theorem refMultiSum_sumAxisT {α : Type} [AddCommMonoid α] (start k : Nat) (t : Tensor α)
    (h : start + k < t.shape.length) :
    tEq (refMultiSum start (sumAxisT (start + k) t)) (refMultiSum start t) := by
  have hshape : ((t.shape.eraseIdx (start + k)).take start) = t.shape.take start :=
    take_eraseIdx_add start k t.shape
  refine ⟨hshape, ?_⟩
  intro v hv
  have hlenv : v.length = start := by
    have h1 := hv.1
    rw [show (refMultiSum start (sumAxisT (start + k) t)).shape
        = (t.shape.eraseIdx (start + k)).take start from rfl, hshape] at h1
    rw [h1, List.length_take]
    omega
  show S ((t.shape.eraseIdx (start + k)).drop start)
      (fun j => (sumAxisT (start + k) t).data (v ++ j))
    = S (t.shape.drop start) (fun j => t.data (v ++ j))
  rw [drop_eraseIdx_add]
  calc S ((t.shape.drop start).eraseIdx k)
          (fun j => ∑ i ∈ Finset.range (t.shape.getD (start + k) 0),
            t.data (List.insertIdx (start + k) i (v ++ j)))
      = S ((t.shape.drop start).eraseIdx k)
          (fun j => ∑ i ∈ Finset.range (t.shape.getD (start + k) 0),
            t.data (v ++ List.insertIdx k i j)) := by
        congr 1
        funext j
        refine Finset.sum_congr rfl (fun i _ => ?_)
        rw [show start + k = v.length + k by rw [hlenv], insertIdx_length_append]
    _ = ∑ i ∈ Finset.range (t.shape.getD (start + k) 0),
          S ((t.shape.drop start).eraseIdx k)
            (fun j => t.data (v ++ List.insertIdx k i j)) := by
        exact S_sum_comm (Finset.range (t.shape.getD (start + k) 0))
          ((t.shape.drop start).eraseIdx k)
          (fun i j => t.data (v ++ List.insertIdx k i j))
    _ = S (t.shape.drop start) (fun j => t.data (v ++ j)) := by
        rw [show t.shape.getD (start + k) 0 = (t.shape.drop start).getD k 0 from
          (getD_drop_add start k 0 t.shape).symm]
        exact (S_insert (t.shape.drop start) k (fun j => t.data (v ++ j))
          (by rw [List.length_drop]; omega)).symm

/-- Base case: with no trailing axes the multi-sum is the tensor itself. -/
theorem tEq_refMultiSum_self {α : Type} [AddCommMonoid α] (start : Nat) (t : Tensor α)
    (h : t.shape.length = start) : tEq t (refMultiSum start t) := by
  refine ⟨?_, ?_⟩
  · show t.shape = t.shape.take start
    rw [List.take_of_length_le (by omega)]
  · intro v _
    show t.data v = S (t.shape.drop start) (fun j => t.data (v ++ j))
    rw [List.drop_eq_nil_of_le (by omega)]
    show t.data v = t.data (v ++ [])
    rw [List.append_nil]

/-- The code's iterated `sum_axis` at the block start computes the reference
multi-sum over the trailing axes. -/
theorem sumAxisIter_replicate {α : Type} [AddCommMonoid α] :
    ∀ (k start : Nat) (t : Tensor α), t.shape.length = start + k →
      ∃ r, sumAxisIter (List.replicate k start) t = some r ∧
        tEq r (refMultiSum start t) := by
  intro k
  induction k with
  | zero =>
      intro start t h
      exact ⟨t, rfl, tEq_refMultiSum_self start t (by omega)⟩
  | succ k ih =>
      intro start t h
      have hlt : start < t.shape.length := by omega
      have hrank : (sumAxisT start t).shape.length = start + k := by
        show (t.shape.eraseIdx start).length = start + k
        rw [List.length_eraseIdx, if_pos hlt]
        omega
      obtain ⟨r, hit, hteq⟩ := ih start (sumAxisT start t) hrank
      refine ⟨r, ?_, ?_⟩
      · rw [List.replicate_succ]
        show (sumAxis start t).bind (sumAxisIter (List.replicate k start)) = some r
        rw [sumAxis, if_pos hlt, Option.some_bind, hit]
      · refine tEq_trans hteq ?_
        have := refMultiSum_sumAxisT start 0 t (by omega)
        rw [Nat.add_zero] at this
        exact this

/-- Mapping the position adjustment over the erased original-axis range
yields the range for one fewer trailing axis. -/
theorem erase_range'_map (start n a : Nat) (h1 : start ≤ a) (h2 : a < start + n) :
    ((List.range' start n).erase a).map (fun b => if a < b then b - 1 else b)
      = List.range' start (n - 1) := by
  have hsplit := List.range'_append start (a - start) (n - (a - start)) 1
  rw [show start + 1 * (a - start) = a by omega,
    show n - (a - start) + (a - start) = n by omega] at hsplit
  have hnn : n - (a - start) = (n - (a - start) - 1) + 1 := by omega
  rw [← hsplit, List.erase_append_right]
  · rw [hnn, List.range'_succ, List.erase_cons_head, List.map_append]
    have hid : ∀ b ∈ List.range' start (a - start),
        (if a < b then b - 1 else b) = b := by
      intro b hb
      have hb2 := (List.mem_range'_1.mp hb).2
      rw [if_neg (by omega)]
    have hm2 : ∀ (m s : Nat), a ≤ s →
        (List.range' (s + 1) m).map (fun b => if a < b then b - 1 else b)
          = List.range' s m := by
      intro m
      induction m with
      | zero => intro s _; rfl
      | succ m ihm =>
          intro s hs
          rw [List.range'_succ, List.range'_succ, List.map_cons,
            if_pos (by omega), show s + 1 - 1 = s by omega, ihm (s + 1) (by omega)]
    rw [List.map_congr_left hid, List.map_id', hm2 _ a le_rfl]
    have hjoin := List.range'_append start (a - start) (n - (a - start) - 1) 1
    rw [show start + 1 * (a - start) = a by omega,
      show n - (a - start) - 1 + (a - start) = n - 1 by omega] at hjoin
    exact hjoin
  · intro hmem
    have := (List.mem_range'_1.mp hmem).2
    omega

/-- Collapsing the original trailing axes in any order, with positions
adjusted for earlier removals, computes the reference multi-sum. -/
theorem collapseAxes_perm {α : Type} [AddCommMonoid α]
    (ord : List Nat) (n start : Nat) (t : Tensor α)
    (hrank : t.shape.length = start + n) (hord : ord.Perm (List.range' start n)) :
    ∃ r, collapseAxes ord t = some r ∧ tEq r (refMultiSum start t) := by
  cases ord with
  | nil =>
      have h0 : List.range' start n = [] := hord.symm.eq_nil
      have hn : n = 0 := List.range'_eq_nil.mp h0
      exact ⟨t, by simp only [collapseAxes], tEq_refMultiSum_self start t (by omega)⟩
  | cons a rest =>
      have ha : a ∈ List.range' start n := hord.subset (List.mem_cons_self a rest)
      obtain ⟨ha1, ha2⟩ := List.mem_range'_1.mp ha
      have hlt : a < t.shape.length := by omega
      have hrank2 : (sumAxisT a t).shape.length = start + (n - 1) := by
        show (t.shape.eraseIdx a).length = start + (n - 1)
        rw [List.length_eraseIdx, if_pos hlt]
        omega
      have hrest : rest.Perm ((List.range' start n).erase a) :=
        ((List.perm_cons_erase ha).symm.trans hord.symm).symm.cons_inv
      have hmap : (rest.map (fun b => if a < b then b - 1 else b)).Perm
          (List.range' start (n - 1)) := by
        rw [← erase_range'_map start n a ha1 ha2]
        exact hrest.map _
      obtain ⟨r, hc, ht⟩ := collapseAxes_perm
        (rest.map (fun b => if a < b then b - 1 else b)) (n - 1) start
        (sumAxisT a t) hrank2 hmap
      refine ⟨r, ?_, ?_⟩
      · rw [show collapseAxes (a :: rest) t = (sumAxis a t).bind
            (collapseAxes (rest.map (fun b => if a < b then b - 1 else b))) from by
          simp only [collapseAxes]]
        rw [sumAxis, if_pos hlt, Option.some_bind, hc]
      · refine tEq_trans ht ?_
        have hstep := refMultiSum_sumAxisT start (a - start) t (by omega)
        rw [show start + (a - start) = a by omega] at hstep
        exact hstep
termination_by ord.length
decreasing_by simp_all

/-! ## Helpers for the strided diagonalization claims -/

theorem getD_map_of_lt {β γ : Type} (f : β → γ) (l : List β) (k : Nat) (d₀ : β) (d : γ)
    (h : k < l.length) : (l.map f).getD k d = f (l.getD k d₀) := by
  rw [List.getD_eq_getElem (l.map f) d (by rw [List.length_map]; exact h),
    List.getElem_map, List.getD_eq_getElem l d₀ h]

theorem getD_set_self' (l : List Nat) (o x : Nat) (h : o < l.length) :
    (l.set o x).getD o 0 = x := by
  rw [List.getD_eq_getElem?_getD, List.getElem?_set_self h]
  rfl

theorem getD_set_of_ne (l : List Nat) (o o' x : Nat) (h : o ≠ o') :
    (l.set o x).getD o' 0 = l.getD o' 0 := by
  rw [List.getD_eq_getElem?_getD, List.getElem?_set_ne h, ← List.getD_eq_getElem?_getD]

theorem getD_of_get?_eq (l : List Nat) (k o : Nat) (h : l.get? k = some o) :
    l.getD k 0 = o := by
  rw [List.getD_eq_getElem?_getD, ← List.get?_eq_getElem?, h]
  rfl

theorem getD_replicate_zero (n o : Nat) : (List.replicate n (0 : Nat)).getD o 0 = 0 := by
  rw [List.getD_eq_getElem?_getD, List.getElem?_replicate]
  by_cases h : o < n <;> simp [h]

theorem map_getD_range {β : Type} (l : List β) (d : β) :
    (List.range l.length).map (fun i => l.getD i d) = l := by
  apply List.ext_getElem
  · rw [List.length_map, List.length_range]
  · intro n h1 h2
    rw [List.getElem_map, List.getElem_range, List.getD_eq_getElem l d h2]

theorem sum_list_range {α : Type} [AddCommMonoid α] (f : Nat → α) :
    ∀ (n : Nat), ((List.range n).map f).sum = ∑ i ∈ Finset.range n, f i := by
  intro n
  induction n with
  | zero => rfl
  | succ n ih =>
      rw [List.range_succ, List.map_append, List.sum_append, Finset.sum_range_succ, ih]
      simp

theorem firstPos_lt (c : Char) :
    ∀ (l : List Char) (p : Nat), firstPos c l = some p → p < l.length := by
  intro l
  induction l with
  | nil => intro p hp; exact absurd hp (by simp [firstPos])
  | cons x xs ih =>
      intro p hp
      rw [firstPos] at hp
      by_cases hx : x = c
      · rw [if_pos hx] at hp
        injection hp with hp
        subst hp
        simp
      · rw [if_neg hx] at hp
        cases hq : firstPos c xs with
        | none => rw [hq] at hp; exact absurd hp (by simp)
        | some q =>
            rw [hq] at hp
            injection hp with hp
            subst hp
            have := ih q hq
            simp
            omega

theorem firstPos_getD (c : Char) :
    ∀ (l : List Char) (p : Nat), firstPos c l = some p → l.getD p ' ' = c := by
  intro l
  induction l with
  | nil => intro p hp; exact absurd hp (by simp [firstPos])
  | cons x xs ih =>
      intro p hp
      rw [firstPos] at hp
      by_cases hx : x = c
      · rw [if_pos hx] at hp
        injection hp with hp
        subst hp
        exact hx
      · rw [if_neg hx] at hp
        cases hq : firstPos c xs with
        | none => rw [hq] at hp; exact absurd hp (by simp)
        | some q =>
            rw [hq] at hp
            injection hp with hp
            subst hp
            rw [List.getD_cons_succ]
            exact ih q hq

theorem positionsOf_spec (outs : List Char) :
    ∀ (l : List Char) (res : List Nat), positionsOf outs l = some res →
      res.length = l.length ∧
      ∀ k, k < l.length →
        firstPos (l.getD k ' ') outs = some (res.getD k 0) := by
  intro l
  induction l with
  | nil =>
      intro res hres
      rw [positionsOf] at hres
      injection hres with hres
      subst hres
      exact ⟨rfl, fun k hk => absurd hk (by simp)⟩
  | cons c cs ih =>
      intro res hres
      rw [positionsOf] at hres
      cases hp : firstPos c outs with
      | none => rw [hp] at hres; exact absurd hres (by simp)
      | some p =>
          rw [hp] at hres
          cases hrest : positionsOf outs cs with
          | none => rw [hrest] at hres; exact absurd hres (by simp)
          | some res' =>
              rw [hrest] at hres
              injection hres with hres
              subst hres
              obtain ⟨hlen, hall⟩ := ih res' hrest
              refine ⟨by simp [hlen], ?_⟩
              intro k hk
              cases k with
              | zero => exact hp
              | succ k =>
                  rw [List.getD_cons_succ, List.getD_cons_succ]
                  exact hall k (by simpa using hk)

/-- Elimination of a successful `Diagonalization::new`. -/
theorem diag_new_elim (sc : SizedContraction) (op0 : List Char) (d : Diagonalization)
    (hop : sc.contraction.operand_indices = [op0])
    (hd : Diagonalization.new sc = some d) :
    ∃ mapping, positionsOf sc.contraction.output_indices op0 = some mapping ∧
      d = ⟨mapping, sc.contraction.output_indices.map sc.output_size⟩ := by
  unfold Diagonalization.new at hd
  rw [hop] at hd
  cases hm : positionsOf sc.contraction.output_indices op0 with
  | none =>
      rw [show (match [op0] with
          | [op0] => (positionsOf sc.contraction.output_indices op0).map
              (fun mapping =>
                (⟨mapping, sc.contraction.output_indices.map sc.output_size⟩ : Diagonalization))
          | _ => none) = (positionsOf sc.contraction.output_indices op0).map
              (fun mapping =>
                (⟨mapping, sc.contraction.output_indices.map sc.output_size⟩ : Diagonalization))
        from rfl, hm] at hd
      exact absurd hd (by simp)
  | some mapping =>
      rw [show (match [op0] with
          | [op0] => (positionsOf sc.contraction.output_indices op0).map
              (fun mapping =>
                (⟨mapping, sc.contraction.output_indices.map sc.output_size⟩ : Diagonalization))
          | _ => none) = (positionsOf sc.contraction.output_indices op0).map
              (fun mapping =>
                (⟨mapping, sc.contraction.output_indices.map sc.output_size⟩ : Diagonalization))
        from rfl, hm] at hd
      injection hd with hd
      exact ⟨mapping, rfl, hd.symm⟩

/-- Characterization of a successful stride-accumulation pass: each output
slot gains the sum of the (positive) input strides of the axes mapped onto
it. -/
theorem addDiagStrides_spec (mapping : List Nat) :
    ∀ (strides : List Int) (idx : Nat) (acc res : List Nat),
      addDiagStrides mapping strides idx acc = some res →
      res.length = acc.length ∧
      ∀ o, o < acc.length →
        res.getD o 0 = acc.getD o 0 + ∑ k ∈ Finset.range strides.length,
          (if mapping.getD (idx + k) 0 = o then (strides.getD k 0).toNat else 0) := by
  intro strides
  induction strides with
  | nil =>
      intro idx acc res hres
      rw [addDiagStrides] at hres
      injection hres with hres
      subst hres
      exact ⟨rfl, fun o _ => by simp⟩
  | cons s rest ih =>
      intro idx acc res hres
      rw [addDiagStrides] at hres
      by_cases hs : 0 < s
      · rw [if_pos hs] at hres
        cases hm : mapping.get? idx with
        | none => rw [hm] at hres; exact absurd hres (by simp)
        | some o₀ =>
            rw [hm] at hres
            replace hres : (if o₀ < acc.length then
                addDiagStrides mapping rest (idx + 1)
                  (acc.set o₀ (acc.getD o₀ 0 + s.toNat))
              else none) = some res := hres
            by_cases ho₀ : o₀ < acc.length
            · rw [if_pos ho₀] at hres
              obtain ⟨hlen, hval⟩ := ih (idx + 1)
                (acc.set o₀ (acc.getD o₀ 0 + s.toNat)) res hres
              rw [List.length_set] at hlen
              refine ⟨hlen, ?_⟩
              intro o ho
              have hmgd : mapping.getD idx 0 = o₀ := getD_of_get?_eq mapping idx o₀ hm
              have hsum : (∑ k ∈ Finset.range (s :: rest).length,
                  (if mapping.getD (idx + k) 0 = o
                    then ((s :: rest).getD k 0).toNat else 0))
                  = (∑ k ∈ Finset.range rest.length,
                      (if mapping.getD (idx + 1 + k) 0 = o
                        then (rest.getD k 0).toNat else 0))
                    + (if mapping.getD idx 0 = o then s.toNat else 0) := by
                rw [List.length_cons, Finset.sum_range_succ']
                congr 1
                apply Finset.sum_congr rfl
                intro k _
                rw [show idx + (k + 1) = idx + 1 + k by omega, List.getD_cons_succ]
              rw [hval o (by rw [List.length_set]; exact ho), hsum]
              by_cases heq : o = o₀
              · subst heq
                rw [getD_set_self' acc o (acc.getD o 0 + s.toNat) ho, if_pos hmgd]
                omega
              · rw [getD_set_of_ne acc o₀ o _ (fun hc => heq hc.symm),
                  if_neg (fun hc => heq (hmgd ▸ hc).symm)]
                omega
            · rw [if_neg ho₀] at hres
              exact absurd hres (by simp)
      · rw [if_neg hs] at hres
        exact absurd hres (by simp)

/-- A non-positive stride anywhere makes the accumulation pass fail (the
`assert!(stride > 0)` fires). -/
theorem addDiagStrides_none (mapping : List Nat) :
    ∀ (strides : List Int) (idx : Nat) (acc : List Nat),
      (∃ x ∈ strides, x ≤ 0) →
      addDiagStrides mapping strides idx acc = none := by
  intro strides
  induction strides with
  | nil => intro idx acc h; exact absurd h (by simp)
  | cons s rest ih =>
      intro idx acc h
      rw [addDiagStrides]
      by_cases hs : 0 < s
      · rw [if_pos hs]
        obtain ⟨x, hx, hxle⟩ := h
        have hxr : x ∈ rest := by
          cases hx with
          | head => omega
          | tail _ h => exact h
        cases hm : mapping.get? idx with
        | none => rfl
        | some o₀ =>
            show (if o₀ < acc.length then
                addDiagStrides mapping rest (idx + 1)
                  (acc.set o₀ (acc.getD o₀ 0 + s.toNat))
              else none) = none
            by_cases ho₀ : o₀ < acc.length
            · rw [if_pos ho₀]
              exact ih (idx + 1) _ ⟨x, hxr, hxle⟩
            · rw [if_neg ho₀]
      · rw [if_neg hs]

/-- With positive strides and in-range mapped positions the accumulation
pass succeeds. -/
theorem addDiagStrides_some (mapping : List Nat) :
    ∀ (strides : List Int) (idx : Nat) (acc : List Nat),
      (∀ x ∈ strides, 0 < x) →
      (∀ k, k < strides.length →
        ∃ o, mapping.get? (idx + k) = some o ∧ o < acc.length) →
      ∃ res, addDiagStrides mapping strides idx acc = some res := by
  intro strides
  induction strides with
  | nil => intro idx acc _ _; exact ⟨acc, rfl⟩
  | cons s rest ih =>
      intro idx acc hpos hcov
      obtain ⟨o₀, hm, ho₀⟩ := hcov 0 (by simp)
      rw [Nat.add_zero] at hm
      rw [addDiagStrides, if_pos (hpos s (by simp)), hm]
      show ∃ res, (if o₀ < acc.length then
          addDiagStrides mapping rest (idx + 1)
            (acc.set o₀ (acc.getD o₀ 0 + s.toNat))
        else none) = some res
      rw [if_pos ho₀]
      refine ih (idx + 1) _ (fun x hx => hpos x (by simp [hx])) ?_
      intro k hk
      obtain ⟨o, hmo, hol⟩ := hcov (k + 1) (by simpa using hk)
      refine ⟨o, ?_, by rwa [List.length_set]⟩
      rwa [show idx + 1 + k = idx + (k + 1) by omega]

/-- Regrouping a fiber-wise weighted sum: weighting each output slot's
accumulated value and summing equals summing the per-input-axis weighted
contributions. -/
theorem weighted_merge (L R : Nat) (m w g : Nat → Nat)
    (hm : ∀ k, k < R → m k < L) :
    (∑ o ∈ Finset.range L, w o * (∑ k ∈ Finset.range R, if m k = o then g k else 0))
      = ∑ k ∈ Finset.range R, w (m k) * g k := by
  have h1 : ∀ o, w o * (∑ k ∈ Finset.range R, if m k = o then g k else 0)
      = ∑ k ∈ Finset.range R, (if m k = o then w o * g k else 0) := by
    intro o
    rw [Finset.mul_sum]
    apply Finset.sum_congr rfl
    intro k _
    by_cases h : m k = o <;> simp [h]
  rw [Finset.sum_congr rfl (fun o _ => h1 o), Finset.sum_comm]
  apply Finset.sum_congr rfl
  intro k hk
  have h2 : ∀ o, (if m k = o then w o * g k else 0) = (if m k = o then w (m k) * g k else 0) := by
    intro o
    by_cases h : m k = o
    · rw [if_pos h, if_pos h, h]
    · rw [if_neg h, if_neg h]
  rw [Finset.sum_congr rfl (fun o _ => h2 o), Finset.sum_ite_eq,
    if_pos (Finset.mem_range.mpr (hm k (Finset.mem_range.mp hk)))]

/-! ## Row-major stride lemmas -/

theorem rowMajorStrides_length : ∀ (s : List Nat), (rowMajorStrides s).length = s.length := by
  intro s
  induction s with
  | nil => rfl
  | cons d ds ih => rw [rowMajorStrides, List.length_cons, List.length_cons, ih]

theorem rowMajorStrides_pos :
    ∀ (s : List Nat), (∀ x ∈ s, 0 < x) → ∀ y ∈ rowMajorStrides s, 0 < y := by
  intro s
  induction s with
  | nil => intro _ y hy; exact absurd hy (by simp [rowMajorStrides])
  | cons d ds ih =>
      intro hpos y hy
      rw [rowMajorStrides] at hy
      cases hy with
      | head =>
          have : 0 < ds.prod := List.prod_pos (fun a ha => hpos a (by simp [ha]))
          exact_mod_cast this
      | tail _ h => exact ih (fun x hx => hpos x (by simp [hx])) y h

/-- Telescoping bound: for a positive-extent shape in row-major layout, the
largest reachable offset is one less than the element count. -/
theorem maxoff_rowmajor :
    ∀ (s : List Nat), (∀ x ∈ s, 0 < x) →
      (∑ k ∈ Finset.range s.length,
        (s.getD k 0 - 1) * ((rowMajorStrides s).getD k 0).toNat) = s.prod - 1 := by
  intro s
  induction s with
  | nil => intro _; rfl
  | cons d ds ih =>
      intro hpos
      rw [List.length_cons, Finset.sum_range_succ']
      have hstep : (∑ k ∈ Finset.range ds.length,
          ((d :: ds).getD (k + 1) 0 - 1)
            * (((rowMajorStrides (d :: ds)).getD (k + 1) 0).toNat))
          = ∑ k ∈ Finset.range ds.length,
              (ds.getD k 0 - 1) * ((rowMajorStrides ds).getD k 0).toNat := by
        apply Finset.sum_congr rfl
        intro k _
        rw [List.getD_cons_succ, show rowMajorStrides (d :: ds)
          = (ds.prod : Int) :: rowMajorStrides ds from rfl, List.getD_cons_succ]
      rw [hstep, ih (fun x hx => hpos x (by simp [hx]))]
      have h0 : ((d :: ds).getD 0 0 - 1) * (((rowMajorStrides (d :: ds)).getD 0 0).toNat)
          = (d - 1) * ds.prod := by
        rw [show rowMajorStrides (d :: ds) = (ds.prod : Int) :: rowMajorStrides ds from rfl]
        rw [List.getD_cons_zero, List.getD_cons_zero, Int.toNat_ofNat]
      rw [h0, List.prod_cons]
      have hd : 0 < d := hpos d (by simp)
      have hds : 0 < ds.prod := List.prod_pos (fun a ha => hpos a (by simp [ha]))
      have : ds.prod - 1 + (d - 1) * ds.prod = (d - 1) * ds.prod + ds.prod - 1 := by omega
      rw [this]
      have : (d - 1) * ds.prod + ds.prod = d * ds.prod := by
        cases d with
        | zero => omega
        | succ d => rw [Nat.succ_sub_one, Nat.succ_mul]
      rw [this]

/-- Largest reachable offset of a memory-contiguous view with positive
strides and positive element count: one less than the buffer length. -/
theorem maxoff_memContiguous {α : Type} (t : StridedTensor α)
    (hc : memContiguous t) (hprod : 0 < t.shape.prod) :
    (∑ k ∈ Finset.range t.shape.length,
      (t.shape.getD k 0 - 1) * ((t.strides.getD k 0).toNat)) = t.shape.prod - 1 := by
  obtain ⟨hlen, hbuf, σ, hσmem, hstd⟩ := hc
  have hσ : σ.Perm (List.range t.shape.length) := List.mem_permutations.mp hσmem
  have hσlen : σ.length = t.shape.length := by
    rw [hσ.length_eq, List.length_range]
  set f : Nat → Nat := fun k => (t.shape.getD k 0 - 1) * ((t.strides.getD k 0).toNat) with hf
  have hshapepos : ∀ x ∈ t.shape, 0 < x := by
    intro x hx
    rcases Nat.eq_zero_or_pos x with h0 | h1
    · subst h0
      have := List.prod_eq_zero_iff.mpr hx
      omega
    · exact h1
  have hsum1 : (∑ k ∈ Finset.range t.shape.length, f k) = (σ.map f).sum := by
    rw [← sum_list_range f t.shape.length]
    exact (List.Perm.sum_eq (List.Perm.map f hσ)).symm
  set ps : List Nat := σ.map (fun i => t.shape.getD i 0) with hps
  have hpslen : ps.length = σ.length := List.length_map σ _
  have hσmap : σ = (List.range σ.length).map (fun i => σ.getD i 0) :=
    (map_getD_range σ 0).symm
  have hsum2 : (σ.map f).sum = ∑ i ∈ Finset.range σ.length, f (σ.getD i 0) := by
    conv_lhs => rw [hσmap]
    rw [List.map_map, sum_list_range]
    rfl
  have hentry : ∀ i, i < σ.length →
      f (σ.getD i 0) = (ps.getD i 0 - 1) * (((rowMajorStrides ps).getD i 0).toNat) := by
    intro i hi
    have h1 : ps.getD i 0 = t.shape.getD (σ.getD i 0) 0 :=
      getD_map_of_lt (fun j => t.shape.getD j 0) σ i 0 0 hi
    have h2 : (rowMajorStrides ps).getD i 0 = t.strides.getD (σ.getD i 0) 0 := by
      rw [← hstd]
      exact getD_map_of_lt (fun j => t.strides.getD j 0) σ i 0 0 hi
    rw [hf, h1, h2]
  have hpspos : ∀ x ∈ ps, 0 < x := by
    intro x hx
    rw [hps] at hx
    obtain ⟨i, hi, hxi⟩ := List.mem_map.mp hx
    have hilt : i ∈ List.range t.shape.length := (hσ.mem_iff).mp hi
    have : i < t.shape.length := List.mem_range.mp hilt
    rw [← hxi]
    refine hshapepos _ ?_
    rw [List.getD_eq_getElem t.shape 0 this]
    exact List.getElem_mem this
  have hpsprod : ps.prod = t.shape.prod := by
    have hps2 : ps.Perm ((List.range t.shape.length).map (fun i => t.shape.getD i 0)) :=
      List.Perm.map _ hσ
    rw [map_getD_range t.shape 0] at hps2
    exact hps2.prod_eq
  rw [hsum1, hsum2, Finset.sum_congr rfl (fun i hi => hentry i (Finset.mem_range.mp hi))]
  have := maxoff_rowmajor ps hpspos
  rw [hpslen] at this
  rw [this, hpsprod]

/-! ## Flattening and linearization lemmas -/

theorem flatRange_length {β : Type} (g : Nat → List β) (P : Nat) :
    ∀ (d : Nat), (∀ i, i < d → (g i).length = P) → (flatRange g d).length = d * P := by
  intro d
  induction d with
  | zero => intro _; simp [flatRange]
  | succ d ih =>
      intro h
      rw [flatRange, List.length_append, ih (fun i hi => h i (by omega)), h d (by omega)]
      ring

theorem flatRange_getD {β : Type} (g : Nat → List β) (P : Nat) (dflt : β) :
    ∀ (d : Nat), (∀ i', i' < d → (g i').length = P) →
      ∀ (i r : Nat), i < d → r < P →
        (flatRange g d).getD (i * P + r) dflt = (g i).getD r dflt := by
  intro d
  induction d with
  | zero => intro _ i r hi _; exact absurd hi (by omega)
  | succ d ih =>
      intro h i r hi hr
      rw [flatRange]
      have hlen : (flatRange g d).length = d * P :=
        flatRange_length g P d (fun i' hi' => h i' (by omega))
      by_cases hid : i < d
      · have hbound : i * P + r < (flatRange g d).length := by
          rw [hlen]
          calc i * P + r < i * P + P := by omega
            _ = (i + 1) * P := by ring
            _ ≤ d * P := Nat.mul_le_mul_right P (by omega)
        rw [List.getD_append _ _ _ _ hbound]
        exact ih (fun i' hi' => h i' (by omega)) i r hid hr
      · have hieq : i = d := by omega
        subst hieq
        rw [List.getD_append_right _ _ _ _ (by rw [hlen]; omega)]
        rw [hlen]
        congr 1
        omega

theorem flattenF_length {α : Type} :
    ∀ (s : List Nat) (f : List Nat → α), (flattenF s f).length = s.prod := by
  intro s
  induction s with
  | nil => intro f; rfl
  | cons d ds ih =>
      intro f
      rw [flattenF, List.prod_cons]
      exact flatRange_length _ ds.prod d (fun i _ => ih (fun j => f (i :: j)))

theorem encodeIdx_lt :
    ∀ (s u : List Nat), validIdx s u → encodeIdx s u < s.prod := by
  intro s
  induction s with
  | nil => intro u _; exact Nat.zero_lt_one
  | cons d ds ih =>
      intro u hu
      cases u with
      | nil => exact absurd hu.1 (by simp)
      | cons i us =>
          have hi : i < d := by
            have := hu.2 0 (by simp)
            simpa using this
          have hus : validIdx ds us := by
            refine ⟨by have := hu.1; simpa using this, ?_⟩
            intro k hk
            have := hu.2 (k + 1) (by simpa using hk)
            simpa using this
          have he := ih us hus
          rw [encodeIdx, List.prod_cons]
          calc i * ds.prod + encodeIdx ds us < i * ds.prod + ds.prod := by omega
            _ = (i + 1) * ds.prod := by ring
            _ ≤ d * ds.prod := Nat.mul_le_mul_right ds.prod (by omega)

theorem flattenF_getD {α : Type} (dflt : α) :
    ∀ (s : List Nat) (f : List Nat → α) (u : List Nat), validIdx s u →
      (flattenF s f).getD (encodeIdx s u) dflt = f u := by
  intro s
  induction s with
  | nil =>
      intro f u hu
      have : u = [] := List.length_eq_zero.mp (by have := hu.1; simpa using this)
      subst this
      rfl
  | cons d ds ih =>
      intro f u hu
      cases u with
      | nil => exact absurd hu.1 (by simp)
      | cons i us =>
          have hi : i < d := by
            have := hu.2 0 (by simp)
            simpa using this
          have hus : validIdx ds us := by
            refine ⟨by have := hu.1; simpa using this, ?_⟩
            intro k hk
            have := hu.2 (k + 1) (by simpa using hk)
            simpa using this
          rw [flattenF, encodeIdx]
          rw [flatRange_getD _ ds.prod dflt d
            (fun i' _ => flattenF_length ds (fun j => f (i' :: j))) i
            (encodeIdx ds us) hi (encodeIdx_lt ds us hus)]
          exact ih (fun j => f (i :: j)) us hus

theorem encodeIdx_nil : ∀ (s : List Nat), encodeIdx s [] = 0 := by
  intro s
  cases s with
  | nil => rfl
  | cons d ds => rfl

theorem encodeIdx_eq_sum :
    ∀ (s u : List Nat), encodeIdx s u
      = ∑ k ∈ Finset.range s.length,
          u.getD k 0 * ((rowMajorStrides s).getD k 0).toNat := by
  intro s
  induction s with
  | nil => intro u; rfl
  | cons d ds ih =>
      intro u
      rw [List.length_cons, Finset.sum_range_succ']
      have hstep : (∑ k ∈ Finset.range ds.length,
          u.getD (k + 1) 0 * (((rowMajorStrides (d :: ds)).getD (k + 1) 0).toNat))
          = ∑ k ∈ Finset.range ds.length,
              u.tail.getD k 0 * ((rowMajorStrides ds).getD k 0).toNat := by
        apply Finset.sum_congr rfl
        intro k _
        rw [show rowMajorStrides (d :: ds) = (ds.prod : Int) :: rowMajorStrides ds from rfl,
          List.getD_cons_succ]
        congr 1
        cases u with
        | nil => rfl
        | cons i us => rw [List.getD_cons_succ]; rfl
      rw [hstep, ← ih u.tail]
      have h0 : u.getD 0 0 * (((rowMajorStrides (d :: ds)).getD 0 0).toNat)
          = u.getD 0 0 * ds.prod := by
        rw [show rowMajorStrides (d :: ds) = (ds.prod : Int) :: rowMajorStrides ds from rfl,
          List.getD_cons_zero, Int.toNat_ofNat]
      rw [h0]
      cases u with
      | nil => simp [encodeIdx, encodeIdx_nil]
      | cons i us => rw [encodeIdx]; simp [List.getD_cons_zero]; omega

/-! ## Diagonal view characterization -/

/-- Characterization of a successful `view_singleton`: the view keeps the
output shape and the borrowed buffer, the input strides are all positive,
and each output-axis stride is the sum of the strides of the input axes
mapped onto it. -/
theorem view_singleton_char {α : Type} (d : Diagonalization) (t : StridedTensor α)
    (w : DiagView α) (h : d.view_singleton t = some w) :
    w.shape = d.output_shape ∧ w.buf = t.buf ∧
      w.strides.length = d.output_shape.length ∧
      (∀ x ∈ t.strides, 0 < x) ∧
      ∀ o, o < d.output_shape.length →
        w.strides.getD o 0 = ∑ k ∈ Finset.range t.strides.length,
          (if d.input_to_output_mapping.getD k 0 = o
            then (t.strides.getD k 0).toNat else 0) := by
  unfold Diagonalization.view_singleton at h
  cases hadd : addDiagStrides d.input_to_output_mapping t.strides 0
      (List.replicate d.output_shape.length 0) with
  | none => rw [hadd] at h; exact absurd h (by simp)
  | some res =>
      rw [hadd, Option.some_bind] at h
      by_cases hmc : memContiguous t
      · rw [if_pos hmc] at h
        by_cases hok : viewOk d.output_shape res t.buf.length
        · rw [if_pos hok] at h
          injection h with h
          subst h
          obtain ⟨hlen, hval⟩ := addDiagStrides_spec d.input_to_output_mapping
            t.strides 0 (List.replicate d.output_shape.length 0) res hadd
          rw [List.length_replicate] at hlen
          have hpos : ∀ x ∈ t.strides, 0 < x := by
            intro x hx
            by_contra hcon
            have := addDiagStrides_none d.input_to_output_mapping t.strides 0
              (List.replicate d.output_shape.length 0) ⟨x, hx, by omega⟩
            rw [this] at hadd
            exact absurd hadd (by simp)
          refine ⟨rfl, rfl, hlen, hpos, ?_⟩
          intro o ho
          have hvo := hval o (by rwa [List.length_replicate])
          rw [getD_replicate_zero] at hvo
          simp only [Nat.zero_add] at hvo
          exact hvo
        · rw [if_neg hok] at h
          exact absurd h (by simp)
      · rw [if_neg hmc] at h
        exact absurd h (by simp)

/-- Success of `view_singleton` for a well-formed diagonalization applied
to a matching, memory-contiguous input with positive strides. -/
theorem view_singleton_some {α : Type} (sc : SizedContraction) (op0 : List Char)
    (d : Diagonalization) (t : StridedTensor α)
    (hop : sc.contraction.operand_indices = [op0])
    (hd : Diagonalization.new sc = some d)
    (hlens : t.strides.length = op0.length)
    (hcoh : t.shape = op0.map sc.output_size)
    (hpos : ∀ x ∈ t.strides, 0 < x)
    (hcont : memContiguous t) :
    ∃ w, d.view_singleton t = some w := by
  obtain ⟨mapping, hmap, hdval⟩ := diag_new_elim sc op0 d hop hd
  obtain ⟨hmlen, hmval⟩ := positionsOf_spec sc.contraction.output_indices op0 mapping hmap
  have hshlen : t.shape.length = op0.length := by rw [hcoh, List.length_map]
  have houtlen : d.output_shape.length = sc.contraction.output_indices.length := by
    rw [hdval, List.length_map]
  have hmget : ∀ k, k < op0.length → mapping.get? k = some (mapping.getD k 0) := by
    intro k hk
    rw [List.get?_eq_getElem?, List.getElem?_eq_getElem (by omega), List.getD_eq_getElem _ _ (by omega)]
  have hmlt : ∀ k, k < op0.length →
      mapping.getD k 0 < sc.contraction.output_indices.length := by
    intro k hk
    exact firstPos_lt _ _ _ (hmval k hk)
  have hmdc : d.input_to_output_mapping = mapping := by rw [hdval]
  -- the accumulation pass succeeds
  obtain ⟨res, hres⟩ := addDiagStrides_some mapping t.strides 0
    (List.replicate d.output_shape.length 0) hpos (by
      intro k hk
      rw [hlens] at hk
      refine ⟨mapping.getD k 0, ?_, ?_⟩
      · rw [Nat.zero_add]
        exact hmget k hk
      · rw [List.length_replicate, houtlen]
        exact hmlt k hk)
  -- per-axis extent coherence
  have hext : ∀ k, k < op0.length →
      d.output_shape.getD (mapping.getD k 0) 0 = t.shape.getD k 0 := by
    intro k hk
    have h1 : sc.contraction.output_indices.getD (mapping.getD k 0) ' '
        = op0.getD k ' ' := firstPos_getD _ _ _ (hmval k hk)
    rw [hdval]
    show (sc.contraction.output_indices.map sc.output_size).getD (mapping.getD k 0) 0
      = t.shape.getD k 0
    rw [getD_map_of_lt sc.output_size _ _ ' ' 0 (hmlt k hk), h1, hcoh,
      getD_map_of_lt sc.output_size _ _ ' ' 0 hk]
  obtain ⟨hreslen, hresval⟩ := addDiagStrides_spec mapping t.strides 0
    (List.replicate d.output_shape.length 0) res hres
  rw [List.length_replicate] at hreslen
  -- the bound check passes
  have hok : viewOk d.output_shape res t.buf.length := by
    unfold viewOk
    by_cases hprod : 0 < t.shape.prod
    · right
      have hrewrite : (∑ o ∈ Finset.range d.output_shape.length,
          (d.output_shape.getD o 0 - 1) * res.getD o 0)
          = ∑ k ∈ Finset.range t.strides.length,
              (d.output_shape.getD (mapping.getD k 0) 0 - 1) * (t.strides.getD k 0).toNat := by
        rw [Finset.sum_congr rfl (fun o ho => by
          rw [hresval o (by rw [List.length_replicate]; exact Finset.mem_range.mp ho),
            getD_replicate_zero, Nat.zero_add])]
        simp only [Nat.zero_add]
        exact weighted_merge d.output_shape.length t.strides.length
          (fun k => mapping.getD k 0) (fun o => d.output_shape.getD o 0 - 1)
          (fun k => (t.strides.getD k 0).toNat)
          (fun k hk => by rw [houtlen]; exact hmlt k (by omega))
      rw [hrewrite]
      have hco : (∑ k ∈ Finset.range t.strides.length,
          (d.output_shape.getD (mapping.getD k 0) 0 - 1) * (t.strides.getD k 0).toNat)
          = ∑ k ∈ Finset.range t.shape.length,
              (t.shape.getD k 0 - 1) * (t.strides.getD k 0).toNat := by
        rw [hlens, ← hshlen]
        apply Finset.sum_congr rfl
        intro k hk
        rw [hext k (by rw [← hshlen]; exact Finset.mem_range.mp hk)]
      rw [hco, maxoff_memContiguous t hcont hprod, hcont.2.1]
      omega
    · left
      have h0 : (0 : Nat) ∈ t.shape := by
        by_contra hno
        exact hprod (List.prod_pos (fun a ha => by
          rcases Nat.eq_zero_or_pos a with h | h
          · subst h; exact absurd ha hno
          · exact h))
      obtain ⟨k, hk, hk0⟩ := List.getElem_of_mem h0
      have hklt : k < op0.length := by omega
      rw [List.prod_eq_zero_iff]
      have : d.output_shape.getD (mapping.getD k 0) 0 = 0 := by
        rw [hext k hklt, List.getD_eq_getElem _ _ hk, hk0]
      rw [← this]
      have hlt2 : mapping.getD k 0 < d.output_shape.length := by
        rw [houtlen]
        exact hmlt k hklt
      rw [List.getD_eq_getElem _ _ hlt2]
      exact List.getElem_mem hlt2
  refine ⟨⟨d.output_shape, res, t.buf⟩, ?_⟩
  unfold Diagonalization.view_singleton
  rw [hmdc, hres, Option.some_bind, if_pos hcont, if_pos hok]

/-- Structural properties of a well-formed `Diagonalization`: the mapping
has one entry per operand axis, every mapped position is a valid output
axis, and (for a matching input shape) the output extent at a mapped
position equals the input extent of the axis mapped there. -/
theorem diag_mapping_spec (sc : SizedContraction) (op0 : List Char) (d : Diagonalization)
    (hop : sc.contraction.operand_indices = [op0])
    (hd : Diagonalization.new sc = some d) :
    d.input_to_output_mapping.length = op0.length ∧
      d.output_shape.length = sc.contraction.output_indices.length ∧
      (∀ k, k < op0.length →
        d.input_to_output_mapping.getD k 0 < d.output_shape.length) ∧
      ∀ (shape : List Nat), shape = op0.map sc.output_size →
        ∀ k, k < op0.length →
          d.output_shape.getD (d.input_to_output_mapping.getD k 0) 0 = shape.getD k 0 := by
  obtain ⟨mapping, hmap, hdval⟩ := diag_new_elim sc op0 d hop hd
  obtain ⟨hmlen, hmval⟩ := positionsOf_spec sc.contraction.output_indices op0 mapping hmap
  have houtlen : d.output_shape.length = sc.contraction.output_indices.length := by
    rw [hdval, List.length_map]
  have hmdc : d.input_to_output_mapping = mapping := by rw [hdval]
  refine ⟨by rw [hmdc, hmlen], houtlen, ?_, ?_⟩
  · intro k hk
    rw [hmdc, houtlen]
    exact firstPos_lt _ _ _ (hmval k hk)
  · intro shape hcoh k hk
    have h1 : sc.contraction.output_indices.getD (mapping.getD k 0) ' '
        = op0.getD k ' ' := firstPos_getD _ _ _ (hmval k hk)
    rw [hmdc, hdval]
    show (sc.contraction.output_indices.map sc.output_size).getD (mapping.getD k 0) 0
      = shape.getD k 0
    rw [getD_map_of_lt sc.output_size _ _ ' ' 0 (firstPos_lt _ _ _ (hmval k hk)), h1,
      hcoh, getD_map_of_lt sc.output_size _ _ ' ' 0 hk]

/-! ## Claim theorems -/

/-- C1: the spec says the `"ii->i"` contraction yields the 1-D diagonal of a
square 2-D tensor.  Executing the embedded `SingletonContraction` dispatcher
on the `"ii->i"` sized contraction instead reaches the failing
`assert_eq!(operand_indices[0].len(), output_indices.len())` in
`Permutation::new` (2 versus 1) and panics, for every input tensor. -/
theorem singleton_diag_ii_panics {α : Type} [AddCommMonoid α] (n : Nat) (t : Tensor α) :
    SingletonContraction.contract_singleton (scDiag n) t = none := rfl

/-- C4: the `"ij->ji"` contraction on an `n × m` tensor yields an `m × n`
tensor whose `(j, i)` entry equals the input's `(i, j)` entry. -/
theorem singleton_transpose_ij_ji {α : Type} [AddCommMonoid α] (n m : Nat) (t : Tensor α)
    (h : t.shape = [n, m]) :
    ∃ r, SingletonContraction.contract_singleton (scTranspose n m) t = some r ∧
      r.shape = [m, n] ∧ ∀ i j, i < n → j < m → r.data [j, i] = t.data [i, j] := by
  have hstep : SingletonContraction.contract_singleton (scTranspose n m) t
      = permutedAxes [1, 0] t := rfl
  rw [hstep, permutedAxes, h]
  rw [if_pos (show ([1, 0] : List Nat).Perm (List.range ([n, m].length)) by
    show ([1, 0] : List Nat).Perm (List.range 2)
    decide)]
  exact ⟨_, rfl, rfl, fun i j _ _ => rfl⟩

/-- C4 witness: the transpose theorem applied to a concrete 2 × 3 tensor. -/
theorem singleton_transpose_ij_ji_witness :
    ∃ r, SingletonContraction.contract_singleton (scTranspose 2 3)
        (⟨[2, 3], fun v => (v.getD 0 0) * 10 + v.getD 1 0⟩ : Tensor Int) = some r ∧
      r.shape = [3, 2] ∧ ∀ i j, i < 2 → j < 3 → r.data [j, i] =
        (⟨[2, 3], fun v => (v.getD 0 0) * 10 + v.getD 1 0⟩ : Tensor Int).data [i, j] :=
  singleton_transpose_ij_ji 2 3 _ rfl

/-- C5: the `"ij->"` contraction on an `n × m` tensor yields a 0-dimensional
result equal to the sum of all entries. -/
theorem singleton_full_sum_ij {α : Type} [AddCommMonoid α] (n m : Nat) (t : Tensor α)
    (h : t.shape = [n, m]) :
    ∃ r, SingletonContraction.contract_singleton (scFullSum n m) t = some r ∧
      r.shape = [] ∧
      r.data [] = ∑ i ∈ Finset.range n, ∑ j ∈ Finset.range m, t.data [i, j] := by
  have hstep : SingletonContraction.contract_singleton (scFullSum n m) t
      = (sumAxis 0 t).bind (sumAxisIter [0]) := rfl
  have hsh : (sumAxisT 0 t).shape = [m] := by
    show (t.shape.eraseIdx 0) = [m]
    rw [h]
    rfl
  refine ⟨sumAxisT 0 (sumAxisT 0 t), ?_, ?_, ?_⟩
  · rw [hstep, sumAxis, if_pos (show 0 < t.shape.length by rw [h]; exact Nat.succ_pos _)]
    show sumAxisIter [0] (sumAxisT 0 t) = _
    rw [sumAxisIter, sumAxis,
      if_pos (show 0 < (sumAxisT 0 t).shape.length by rw [hsh]; exact Nat.succ_pos _)]
    rfl
  · show ((sumAxisT 0 t).shape.eraseIdx 0) = []
    rw [hsh]
    rfl
  · calc (sumAxisT 0 (sumAxisT 0 t)).data []
        = ∑ i ∈ Finset.range ((sumAxisT 0 t).shape.getD 0 0), (sumAxisT 0 t).data [i] := rfl
      _ = ∑ i ∈ Finset.range m, (sumAxisT 0 t).data [i] := by rw [hsh]; rfl
      _ = ∑ i ∈ Finset.range m, ∑ j ∈ Finset.range (t.shape.getD 0 0), t.data [j, i] := rfl
      _ = ∑ i ∈ Finset.range m, ∑ j ∈ Finset.range n, t.data [j, i] := by rw [h]; rfl
      _ = ∑ j ∈ Finset.range n, ∑ i ∈ Finset.range m, t.data [j, i] := Finset.sum_comm

/-- C5 witness: the full-summation theorem applied to a concrete 2 × 2
tensor. -/
theorem singleton_full_sum_ij_witness :
    ∃ r, SingletonContraction.contract_singleton (scFullSum 2 2)
        (⟨[2, 2], fun v => (v.getD 0 0) * 10 + v.getD 1 0⟩ : Tensor Int) = some r ∧
      r.shape = [] ∧
      r.data [] = ∑ i ∈ Finset.range 2, ∑ j ∈ Finset.range 2,
        (⟨[2, 2], fun v => (v.getD 0 0) * 10 + v.getD 1 0⟩ : Tensor Int).data [i, j] :=
  singleton_full_sum_ij 2 2 _ rfl

/-- C2 counterexample: on the `"iij->j"` contraction (a summed label
repeated within the operand) the dispatcher's result is a rank-2 tensor —
`Summation::new` receives the count of distinct summed labels (1), not the
size of the trailing summed-axis block (2) — while the composition described
by the claim yields a rank-1 tensor, so the two differ. -/
theorem singleton_dispatch_block_mismatch :
    (SingletonContraction.contract_singleton scDiagSummed tCube).map Tensor.shape
        = some [2, 2] ∧
      (specSingletonContract scDiagSummed tCube).map Tensor.shape = some [2] ∧
      SingletonContraction.contract_singleton scDiagSummed tCube ≠
        specSingletonContract scDiagSummed tCube := by
  have h1 : (SingletonContraction.contract_singleton scDiagSummed tCube).map Tensor.shape
      = some [2, 2] := rfl
  have h2 : (specSingletonContract scDiagSummed tCube).map Tensor.shape = some [2] := rfl
  refine ⟨h1, h2, fun h => ?_⟩
  rw [congrArg (Option.map Tensor.shape) h, h2] at h1
  exact absurd h1 (by decide)

/-- C2 witness: the amended refinement theorem applied to the concrete
`"ij->i"` contraction (one summed label, no repeats) on a concrete 2 × 2
tensor. -/
theorem singleton_dispatch_refines_spec_witness :
    SingletonContraction.contract_singleton scRowSum
        (⟨[2, 2], fun v => (v.getD 0 0) * 10 + v.getD 1 0⟩ : Tensor Int) =
      specSingletonContract scRowSum
        (⟨[2, 2], fun v => (v.getD 0 0) * 10 + v.getD 1 0⟩ : Tensor Int) :=
  singleton_dispatch_refines_spec scRowSum _ (by decide)

/-- C6: the `Summation` operator built with `start_index` and `n` summed
axes, applied to a tensor of rank `start_index + n`, computes the same
result as iteratively collapsing the trailing `n` axes by elementwise
addition in any order, with each `sum_axis` applied to the still-correct
axis position after earlier removals shift positions. -/
theorem summation_any_collapse_order {α : Type} [AddCommMonoid α]
    (start n : Nat) (s : Summation) (t : Tensor α) (ord : List Nat)
    (hs : Summation.new start n = some s)
    (hrank : t.shape.length = start + n)
    (hord : ord.Perm (List.range' start n)) :
    oEq (s.contract_singleton t) (collapseAxes ord t) := by
  unfold Summation.new at hs
  by_cases hn : 1 ≤ n
  case neg => rw [if_neg hn] at hs; exact absurd hs (by simp)
  rw [if_pos hn] at hs
  have hsval : s = ⟨List.range' start n, List.replicate n start⟩ := by
    injection hs with h
    exact h.symm
  subst hsval
  obtain ⟨k, hk⟩ : ∃ k, n = k + 1 := ⟨n - 1, by omega⟩
  have hcode : Summation.contract_singleton
      (⟨List.range' start n, List.replicate n start⟩ : Summation) t
      = sumAxisIter (List.replicate n start) t := by
    subst hk
    rw [List.replicate_succ]
    rfl
  rw [hcode]
  obtain ⟨r1, h1, ht1⟩ := sumAxisIter_replicate n start t hrank
  obtain ⟨r2, h2, ht2⟩ := collapseAxes_perm ord n start t hrank hord
  rw [h1, h2]
  show tEq r1 r2
  exact tEq_trans ht1 (tEq_symm ht2)

/-- C6 witness: the any-order theorem applied to a concrete rank-3 tensor
with `start_index = 1`, two summed axes, and the descending collapse order
`[2, 1]`. -/
theorem summation_any_collapse_order_witness :
    oEq (Summation.contract_singleton
        (⟨List.range' 1 2, List.replicate 2 1⟩ : Summation) tCube)
      (collapseAxes [2, 1] tCube) :=
  summation_any_collapse_order 1 2 _ tCube [2, 1] rfl rfl (by decide)

/-- C10: for every single-operand sized contraction with no summed labels
whose operand label sequence is longer than its output label sequence, the
dispatcher routes to `Permutation::new`, whose equal-length assertion
fails, so no result is produced (and in particular `Diagonalization`, which
`SingletonContraction::new` never constructs, is not reached). -/
theorem singleton_no_summed_longer_operand_panics {α : Type} [AddCommMonoid α]
    (sc : SizedContraction) (ops : List Char) (t : Tensor α)
    (hop : sc.contraction.operand_indices = [ops])
    (hsum : (classify sc).summed_indices.length = 0)
    (hlen : sc.contraction.output_indices.length < ops.length) :
    SingletonContraction.contract_singleton sc t = none ∧
      Permutation.new sc = none := by
  have hnew : Permutation.new sc = none := by
    unfold Permutation.new
    rw [hop]
    show (if ops.length = sc.contraction.output_indices.length then
        Option.map Permutation.mk (positionsOf ops sc.contraction.output_indices)
      else none) = none
    rw [if_neg (by omega)]
  refine ⟨?_, hnew⟩
  unfold SingletonContraction.contract_singleton
  rw [if_pos hsum, hnew]
  rfl

/-- C10 witness: the panic theorem applied to the concrete `"ii->i"`
contraction and a concrete 2 × 2 tensor. -/
theorem singleton_no_summed_longer_operand_panics_witness :
    SingletonContraction.contract_singleton (scDiag 2)
        (⟨[2, 2], fun _ => (0 : Int)⟩ : Tensor Int) = none ∧
      Permutation.new (scDiag 2) = none :=
  singleton_no_summed_longer_operand_panics (scDiag 2) ['i', 'i'] _ rfl (by decide)
    (by decide)

end Einsum

namespace Einsum

/-- C7: for a single-operand contraction with a repeated label, the
`Diagonalization` view merges the operand axes carrying each label into one
output axis whose stride is the sum of the merged axes' original strides,
and (with extents matching the sized contraction) whose extent equals the
common extent of the merged axes. -/
theorem diag_view_merged_stride_sum {α : Type} (sc : SizedContraction) (op0 : List Char)
    (d : Diagonalization) (t : StridedTensor α) (w : DiagView α)
    (hop : sc.contraction.operand_indices = [op0])
    (hd : Diagonalization.new sc = some d)
    (hlens : t.strides.length = op0.length)
    (hview : d.view_singleton t = some w) :
    w.shape = d.output_shape ∧
      (∀ o, o < d.output_shape.length →
        w.strides.getD o 0 = ∑ k ∈ Finset.range op0.length,
          (if d.input_to_output_mapping.getD k 0 = o
            then (t.strides.getD k 0).toNat else 0)) ∧
      (t.shape = op0.map sc.output_size →
        ∀ k, k < op0.length →
          w.shape.getD (d.input_to_output_mapping.getD k 0) 0 = t.shape.getD k 0) := by
  obtain ⟨hshape, _, _, _, hstr⟩ := view_singleton_char d t w hview
  obtain ⟨_, _, _, hext⟩ := diag_mapping_spec sc op0 d hop hd
  refine ⟨hshape, ?_, ?_⟩
  · intro o ho
    rw [← hlens]
    exact hstr o ho
  · intro hcoh k hk
    rw [hshape]
    exact hext t.shape hcoh k hk

/-- C7 witness: the merged-stride theorem at the concrete `"ii->i"`
contraction on a 2 × 2 row-major input, where the diagonal view has the
single stride 2 + 1 = 3 and extent 2. -/
theorem diag_view_merged_stride_sum_witness :
    (⟨[2], [3], [10, 11, 12, 13]⟩ : DiagView Int).shape
        = (⟨[0, 0], [2]⟩ : Diagonalization).output_shape ∧
      (∀ o, o < (⟨[0, 0], [2]⟩ : Diagonalization).output_shape.length →
        (⟨[2], [3], [10, 11, 12, 13]⟩ : DiagView Int).strides.getD o 0
          = ∑ k ∈ Finset.range (['i', 'i'].length),
              (if (⟨[0, 0], [2]⟩ : Diagonalization).input_to_output_mapping.getD k 0 = o
                then (((⟨[2, 2], [2, 1], [10, 11, 12, 13]⟩ :
                  StridedTensor Int)).strides.getD k 0).toNat else 0)) ∧
      ((⟨[2, 2], [2, 1], [10, 11, 12, 13]⟩ : StridedTensor Int).shape
          = ['i', 'i'].map (scDiag 2).output_size →
        ∀ k, k < ['i', 'i'].length →
          (⟨[2], [3], [10, 11, 12, 13]⟩ : DiagView Int).shape.getD
              ((⟨[0, 0], [2]⟩ : Diagonalization).input_to_output_mapping.getD k 0) 0
            = (⟨[2, 2], [2, 1], [10, 11, 12, 13]⟩ : StridedTensor Int).shape.getD k 0) :=
  diag_view_merged_stride_sum (scDiag 2) ['i', 'i'] ⟨[0, 0], [2]⟩
    ⟨[2, 2], [2, 1], [10, 11, 12, 13]⟩ ⟨[2], [3], [10, 11, 12, 13]⟩ rfl rfl rfl rfl

/-- C9: the in-place diagonal view requires positive strides — for a
matching input whose strides are all positive and which is contiguous in
memory order, none of the operation's assertions and unwraps can fail,
while any input with a non-positive stride is rejected by the
`assert!(stride > 0)`. -/
theorem diag_view_positive_stride_precondition {α : Type} (sc : SizedContraction)
    (op0 : List Char) (d : Diagonalization) (t : StridedTensor α)
    (hop : sc.contraction.operand_indices = [op0])
    (hd : Diagonalization.new sc = some d)
    (hlens : t.strides.length = op0.length)
    (hcoh : t.shape = op0.map sc.output_size) :
    ((∀ x ∈ t.strides, 0 < x) → memContiguous t →
      (d.view_singleton t).isSome = true) ∧
    ((∃ x ∈ t.strides, x ≤ 0) → d.view_singleton t = none) := by
  constructor
  · intro hpos hcont
    obtain ⟨w, hw⟩ := view_singleton_some sc op0 d t hop hd hlens hcoh hpos hcont
    rw [hw]
    rfl
  · intro hbad
    unfold Diagonalization.view_singleton
    rw [addDiagStrides_none d.input_to_output_mapping t.strides 0
      (List.replicate d.output_shape.length 0) hbad]
    rfl

/-- C9 witness: positive-stride contiguous input accepted, negative-stride
input rejected, at the concrete `"ii->i"` contraction on 2 × 2 inputs. -/
theorem diag_view_positive_stride_precondition_witness :
    (Diagonalization.view_singleton ⟨[0, 0], [2]⟩
        (⟨[2, 2], [2, 1], [10, 11, 12, 13]⟩ : StridedTensor Int)).isSome = true ∧
      Diagonalization.view_singleton ⟨[0, 0], [2]⟩
        (⟨[2, 2], [-2, 1], [10, 11, 12, 13]⟩ : StridedTensor Int) = none :=
  ⟨(diag_view_positive_stride_precondition (scDiag 2) ['i', 'i'] ⟨[0, 0], [2]⟩
      (⟨[2, 2], [2, 1], [10, 11, 12, 13]⟩ : StridedTensor Int) rfl rfl rfl rfl).1
      (by decide) (by decide),
    (diag_view_positive_stride_precondition (scDiag 2) ['i', 'i'] ⟨[0, 0], [2]⟩
      (⟨[2, 2], [-2, 1], [10, 11, 12, 13]⟩ : StridedTensor Int) rfl rfl rfl rfl).2
      ⟨-2, by decide, by decide⟩⟩

end Einsum

namespace Einsum

/-- C8 (amended): for an input tensor with positive extents — whatever its
original layout, since the operator first copies it into a fresh contiguous
buffer in iteration order — the copying form of diagonal extraction
succeeds and every returned element equals the input element whose
coordinate on each merged axis is the output coordinate of that axis's
mapped output position (the diagonal of the input). -/
theorem diag_contract_fallback {α : Type} [Inhabited α] (sc : SizedContraction)
    (op0 : List Char) (d : Diagonalization) (t : Tensor α)
    (hop : sc.contraction.operand_indices = [op0])
    (hd : Diagonalization.new sc = some d)
    (hcoh : t.shape = op0.map sc.output_size)
    (hpos : ∀ x ∈ t.shape, 0 < x) :
    ∃ r, d.contract_singleton t = some r ∧ r.shape = d.output_shape ∧
      ∀ v, validIdx d.output_shape v →
        r.data v = t.data (d.input_to_output_mapping.map (fun o => v.getD o 0)) := by
  obtain ⟨hmaplen, houtlen, hmlt, hext⟩ := diag_mapping_spec sc op0 d hop hd
  have hshlen : t.shape.length = op0.length := by rw [hcoh, List.length_map]
  have hall : t.shape.all (fun x => decide (x ≠ 0)) = true := by
    rw [List.all_eq_true]
    intro x hx
    have := hpos x hx
    simp
    omega
  have hds : default_strides t.shape = rowMajorStrides t.shape := by
    unfold default_strides
    rw [if_pos hall]
  have hstridespos : ∀ x ∈ default_strides t.shape, 0 < x := by
    rw [hds]
    exact rowMajorStrides_pos t.shape hpos
  have hlens : (default_strides t.shape).length = op0.length := by
    rw [hds, rowMajorStrides_length, hshlen]
  have hcont : memContiguous (⟨t.shape, default_strides t.shape, flattenT t⟩ :
      StridedTensor α) := by
    refine ⟨?_, ?_, List.range t.shape.length, ?_, ?_⟩
    · show (default_strides t.shape).length = t.shape.length
      rw [hds, rowMajorStrides_length]
    · exact flattenF_length t.shape t.data
    · exact List.mem_permutations.mpr (List.Perm.refl _)
    · show (List.range t.shape.length).map (fun i => (default_strides t.shape).getD i 0)
        = rowMajorStrides ((List.range t.shape.length).map (fun i => t.shape.getD i 0))
      rw [map_getD_range t.shape 0, hds]
      conv_lhs =>
        rw [show t.shape.length = (rowMajorStrides t.shape).length from
          (rowMajorStrides_length t.shape).symm]
      exact map_getD_range _ 0
  obtain ⟨w, hw⟩ := view_singleton_some sc op0 d
    (⟨t.shape, default_strides t.shape, flattenT t⟩ : StridedTensor α)
    hop hd hlens hcoh hstridespos hcont
  obtain ⟨hwshape, hwbuf, hwslen, _, hwstr⟩ := view_singleton_char d _ w hw
  refine ⟨⟨w.shape, fun v => w.elem v⟩, ?_, hwshape, ?_⟩
  · show Option.map (fun w => ({ shape := w.shape, data := fun v => w.elem v } : Tensor α))
        (d.view_singleton ⟨t.shape, default_strides t.shape, flattenT t⟩)
      = some ⟨w.shape, fun v => w.elem v⟩
    rw [hw]
    rfl
  · intro v hv
    show w.elem v = t.data (d.input_to_output_mapping.map (fun o => v.getD o 0))
    set u : List Nat := d.input_to_output_mapping.map (fun o => v.getD o 0) with hu
    have hulen : u.length = t.shape.length := by
      rw [hu, List.length_map, hmaplen, hshlen]
    have huval : validIdx t.shape u := by
      refine ⟨hulen, ?_⟩
      intro k hk
      have hk0 : k < op0.length := by omega
      have h1 : u.getD k 0 = v.getD (d.input_to_output_mapping.getD k 0) 0 := by
        rw [hu]
        exact getD_map_of_lt _ _ _ 0 0 (by rw [hmaplen]; exact hk0)
      have h2 : v.getD (d.input_to_output_mapping.getD k 0) 0
          < d.output_shape.getD (d.input_to_output_mapping.getD k 0) 0 := by
        have := hv.2 (d.input_to_output_mapping.getD k 0) (hmlt k hk0)
        exact this
      rw [h1]
      have h3 := hext t.shape hcoh k hk0
      omega
    unfold DiagView.elem
    have hoff : (∑ o ∈ Finset.range w.shape.length,
        v.getD o 0 * w.strides.getD o 0) = encodeIdx t.shape u := by
      have e1 : (∑ o ∈ Finset.range w.shape.length, v.getD o 0 * w.strides.getD o 0)
          = ∑ o ∈ Finset.range d.output_shape.length,
              v.getD o 0 * (∑ k ∈ Finset.range (default_strides t.shape).length,
                (if d.input_to_output_mapping.getD k 0 = o
                  then ((default_strides t.shape).getD k 0).toNat else 0)) := by
        rw [hwshape]
        apply Finset.sum_congr rfl
        intro o ho
        rw [hwstr o (Finset.mem_range.mp ho)]
      have e2 : (∑ o ∈ Finset.range d.output_shape.length,
          v.getD o 0 * (∑ k ∈ Finset.range (default_strides t.shape).length,
            (if d.input_to_output_mapping.getD k 0 = o
              then ((default_strides t.shape).getD k 0).toNat else 0)))
          = ∑ k ∈ Finset.range (default_strides t.shape).length,
              v.getD (d.input_to_output_mapping.getD k 0) 0
                * ((default_strides t.shape).getD k 0).toNat :=
        weighted_merge d.output_shape.length (default_strides t.shape).length
          (fun k => d.input_to_output_mapping.getD k 0) (fun o => v.getD o 0)
          (fun k => ((default_strides t.shape).getD k 0).toNat)
          (fun k hk => hmlt k (by omega))
      have e3 : (∑ k ∈ Finset.range (default_strides t.shape).length,
          v.getD (d.input_to_output_mapping.getD k 0) 0
            * ((default_strides t.shape).getD k 0).toNat)
          = ∑ k ∈ Finset.range t.shape.length,
              u.getD k 0 * ((rowMajorStrides t.shape).getD k 0).toNat := by
        rw [show (default_strides t.shape).length = t.shape.length by rw [hlens, hshlen]]
        apply Finset.sum_congr rfl
        intro k hk
        have hk' : k < t.shape.length := Finset.mem_range.mp hk
        rw [hds, hu, getD_map_of_lt _ _ _ 0 0 (by rw [hmaplen]; omega)]
      rw [e1, e2, e3, ← encodeIdx_eq_sum]
    rw [hoff, hwbuf]
    show (flattenT t).getD (encodeIdx t.shape u) default = t.data u
    exact flattenF_getD default t.shape t.data u huval

/-- C8 counterexample: a 0 × 0 input (a tensor, hence a layout the claim
covers) makes the copying diagonal extraction panic instead of succeeding —
the contiguous copy of an empty array carries all-zero strides, so the
`assert!(stride > 0)` in `view_singleton` fires. -/
theorem diag_contract_empty_input_panics :
    (Diagonalization.new (scDiag 0)).isSome = true ∧
      (Diagonalization.new (scDiag 0)).bind
        (fun d => d.contract_singleton (⟨[0, 0], fun _ => (0 : Int)⟩ : Tensor Int))
        = none :=
  ⟨rfl, rfl⟩

/-- C8 witness: the fallback theorem at the concrete `"ii->i"` contraction
on a concrete 2 × 2 tensor. -/
theorem diag_contract_fallback_witness :
    ∃ r, Diagonalization.contract_singleton ⟨[0, 0], [2]⟩
        (⟨[2, 2], fun v => (v.getD 0 0) * 10 + v.getD 1 0⟩ : Tensor Int) = some r ∧
      r.shape = [2] ∧
      ∀ v, validIdx [2] v →
        r.data v = (⟨[2, 2], fun v => (v.getD 0 0) * 10 + v.getD 1 0⟩ : Tensor Int).data
          (([0, 0] : List Nat).map (fun o => v.getD o 0)) :=
  diag_contract_fallback (scDiag 2) ['i', 'i'] ⟨[0, 0], [2]⟩
    (⟨[2, 2], fun v => (v.getD 0 0) * 10 + v.getD 1 0⟩ : Tensor Int) rfl rfl rfl
    (by decide)

end Einsum

namespace Einsum

/-- Identity-permutation step on a rank-2 tensor: `permuted_axes([0, 1])`
succeeds and reindexes through `invApply`. -/
theorem permutedAxes_01 {α : Type} (a b : Nat) (h : List Nat → α) :
    permutedAxes [0, 1] (⟨[a, b], h⟩ : Tensor α)
      = some ⟨[a, b], fun v => h (invApply [0, 1] v)⟩ := by
  rw [permutedAxes,
    if_pos (show ([0, 1] : List Nat).Perm (List.range (([a, b] : List Nat).length)) by
      show ([0, 1] : List Nat).Perm (List.range 2)
      decide)]
  rfl

/-- C3: pairwise contraction of a (p, q) tensor with a (q, r) tensor over
the single shared axis (lhs axis 1 against rhs axis 0, no batch axes)
produces a (p, r) tensor computing the standard matrix product. -/
theorem tensordot_matmul {α : Type} [AddCommMonoid α] [Mul α]
    (p q r : Nat) (lhs rhs : Tensor α)
    (hl : lhs.shape = [p, q]) (hr : rhs.shape = [q, r]) :
    ∃ res, tensordot lhs rhs [1] [0] = some res ∧ res.shape = [p, r] ∧
      ∀ i k, i < p → k < r →
        res.data [i, k] = ∑ j ∈ Finset.range q, lhs.data [i, j] * rhs.data [j, k] := by
  cases lhs with
  | mk shL f =>
      cases rhs with
      | mk shR g =>
          replace hl : shL = [p, q] := hl
          replace hr : shR = [q, r] := hr
          subst hl
          subst hr
          have h2 : tensordot (⟨[p, q], f⟩ : Tensor α) (⟨[q, r], g⟩ : Tensor α) [1] [0]
              = (permutedAxes [0, 1] (⟨[p, q], f⟩ : Tensor α)).bind (fun lp =>
                  (permutedAxes [0, 1] (⟨[q, r], g⟩ : Tensor α)).bind (fun rp =>
                    permutedAxes [0, 1] (⟨[p, r], fun v =>
                      ∑ b ∈ Finset.range ([q].prod),
                        lp.data (decodeIdx [p] (encodeIdx [p] (v.take 1))
                            ++ decodeIdx [q] b)
                          * rp.data (decodeIdx [q] b
                            ++ decodeIdx [r] (encodeIdx [r] (v.drop 1)))⟩ : Tensor α))) :=
            rfl
          refine ⟨⟨[p, r], fun v =>
              ∑ b ∈ Finset.range ([q].prod),
                f (invApply [0, 1] (decodeIdx [p]
                      (encodeIdx [p] ((invApply [0, 1] v).take 1))
                    ++ decodeIdx [q] b))
                  * g (invApply [0, 1] (decodeIdx [q] b
                    ++ decodeIdx [r]
                      (encodeIdx [r] ((invApply [0, 1] v).drop 1))))⟩, ?_, rfl, ?_⟩
          · rw [h2, permutedAxes_01 p q f, permutedAxes_01 q r g]
            simp only [Option.some_bind]
            exact permutedAxes_01 p r _
          · intro i k hi hk
            show (∑ b ∈ Finset.range ([q].prod),
                f (invApply [0, 1] [(i * 1 + 0) / List.prod [], b / List.prod []])
                  * g (invApply [0, 1] [b / List.prod [], (k * 1 + 0) / List.prod []]))
              = ∑ j ∈ Finset.range q, f [i, j] * g [j, k]
            have hinv : ∀ (x y : Nat), invApply [0, 1] [x, y] = [x, y] := fun x y => rfl
            simp only [hinv, List.prod_nil, List.prod_cons, Nat.mul_one, Nat.add_zero,
              Nat.div_one]

end Einsum

namespace Einsum

/-- C3 witness: the matrix-multiplication theorem applied to two concrete
2 × 2 integer matrices. -/
theorem tensordot_matmul_witness :
    ∃ res, tensordot (⟨[2, 2], fun v => (v.getD 0 0) * 2 + v.getD 1 0 + 1⟩ : Tensor Int)
        (⟨[2, 2], fun v => (v.getD 0 0) * 2 + v.getD 1 0 + 5⟩ : Tensor Int)
        [1] [0] = some res ∧
      res.shape = [2, 2] ∧
      ∀ i k, i < 2 → k < 2 →
        res.data [i, k] = ∑ j ∈ Finset.range 2,
          (⟨[2, 2], fun v => (v.getD 0 0) * 2 + v.getD 1 0 + 1⟩ : Tensor Int).data [i, j]
            * (⟨[2, 2], fun v => (v.getD 0 0) * 2 + v.getD 1 0 + 5⟩ : Tensor Int).data [j, k] :=
  tensordot_matmul 2 2 2 _ _ rfl rfl

end Einsum
